import Mathlib

/-!
# Verification of the sietch static site generator against its specification

This file gives a shallow embedding, in Lean 4, of the parts of the
`danprince/sietch` Go code base that the specification claims talk about:

* `internal/builder/helpers.go` (`shortHash`, `lessAny`),
* the builder (`Page.addIsland`, `Builder.staticIslands`,
  `Page.clientIslands`, `Builder.renderIslands`, `Builder.bundleIslands`,
  `Builder.addPage`),
* the islands package (`Island.String`, `Island.Marker`, `detectFramework`,
  `islands.Bundle`),
* the cdn module cache (`downloadWithCache`),
* the error machinery of `internal/errors/errors.go`
  (`SourceError.Error`, `V8Error`, `Html`).

Strings are modelled as `List Char` (Go strings are byte slices; where byte
level behaviour matters, e.g. FNV hashing of UTF-8 bytes, an explicit UTF-8
encoder is used).  Machine integers are modelled as `Nat`/`Int` with explicit
`% 2 ^ 32` where Go's `uint32` overflow matters.  Functions that can panic in
Go return `Option`.  External effects (HTTP fetches, the file system, esbuild
outputs, the V8 source map) are passed in as explicit oracle parameters.
-/

namespace Sietch

/-! ## Basic string utilities shared by the embedding -/

/-- Decidable equality test used pervasively; `List Char` already has `BEq`
through `DecidableEq Char`. -/
def chars (s : String) : List Char := s.data

/-- UTF-8 encoding of a single character, as byte values.  Mirrors Go's
`[]byte(s)` conversion, which FNV hashing consumes. -/
def utf8Char (c : Char) : List Nat :=
  let n := c.toNat
  if n < 0x80 then [n]
  else if n < 0x800 then [0xC0 + n / 64, 0x80 + n % 64]
  else if n < 0x10000 then
    [0xE0 + n / 4096, 0x80 + n / 64 % 64, 0x80 + n % 64]
  else
    [0xF0 + n / 262144, 0x80 + n / 4096 % 64, 0x80 + n / 64 % 64, 0x80 + n % 64]

/-- UTF-8 encoding of a string (Go's `[]byte(s)`). -/
def utf8 (l : List Char) : List Nat := l.flatMap utf8Char

/-! ## `internal/builder/helpers.go`: `shortHash`

```go
func shortHash(s string) string {
    h := fnv.New32a()
    h.Write([]byte(s))
    return fmt.Sprintf("%x", h.Sum32())[:4]
}
```

`fnv.New32a` is the 32-bit FNV-1a hash: starting from the offset basis
`2166136261`, each byte is XORed in and the state is multiplied by the prime
`16777619`, modulo `2^32`.  `%x` formats the result as unpadded lowercase
hexadecimal, and `[:4]` takes the first four bytes, panicking when the
string is shorter. -/

/-- One FNV-1a step: XOR the byte in, multiply by the FNV prime mod `2^32`. -/
def fnvStep (h : Nat) (b : Nat) : Nat := (Nat.xor h b) * 16777619 % 4294967296

/-- 32-bit FNV-1a hash of the UTF-8 bytes of a string
(`fnv.New32a().Write([]byte(s)); Sum32()`). -/
def fnv32a (l : List Char) : Nat := (utf8 l).foldl fnvStep 2166136261

/-- Lowercase hexadecimal digit for a value below 16 (`%x` digits). -/
def hexDigit (n : Nat) : Char :=
  if n < 10 then Char.ofNat (48 + n) else Char.ofNat (87 + n)

/-- Digits of `n` in the given base, most significant first, no leading
zeros (empty for `0`); the first argument is recursion fuel, `n` itself is
always enough. -/
def digitsCore (base : Nat) : Nat → Nat → List Char
  | 0, _ => []
  | fuel + 1, n =>
    if n = 0 then [] else digitsCore base fuel (n / base) ++ [hexDigit (n % base)]

/-- Hex digits of a positive number, most significant first (no leading
zeros). -/
def hexAux (n : Nat) : List Char := digitsCore 16 n n

/-- Go's `fmt.Sprintf("%x", n)`: unpadded lowercase hexadecimal; `0` prints
as `"0"`. -/
def natToHex (n : Nat) : List Char := if n = 0 then ['0'] else hexAux n

/-- `shortHash` from `internal/builder/helpers.go`.  Returns `none` when the
Go code panics: `[:4]` on a string shorter than four bytes is a
slice-out-of-range panic. -/
def shortHash (s : List Char) : Option (List Char) :=
  let hx := natToHex (fnv32a s)
  if 4 ≤ hx.length then some (hx.take 4) else none

/-! ## Island ids: `Page.addIsland`

```go
func (p *Page) addIsland(entryPoint string, props islands.Props) *islands.Island {
    id := fmt.Sprintf("%s_%d", p.id, len(p.islands))
    ...
}
```
-/

/-- Hydration types from `internal/islands` (`Static`, `ClientOnLoad`,
`ClientOnVisible`, `ClientOnIdle`; the builder's template functions call the
non-static ones `HydrateOnLoad` etc.). -/
inductive HydrationType where
  | Static
  | ClientOnLoad
  | ClientOnVisible
  | ClientOnIdle
deriving DecidableEq

/-- The `Island` struct (`Id`, `Type` — written `Type'` since `Type` is a Lean keyword — `EntryPoint`, `ClientOnly`; `Props`
are kept abstract as they do not affect the claims). -/
structure Island where
  Id : List Char
  Type' : HydrationType
  EntryPoint : List Char
  ClientOnly : Bool
deriving DecidableEq

/-- Decimal digits of a positive natural number (`hexDigit` agrees with the
decimal digit characters below ten). -/
def natDecAux (n : Nat) : List Char := digitsCore 10 n n

/-- Go's decimal formatting of a natural number. -/
def natDec (n : Nat) : List Char := if n = 0 then ['0'] else natDecAux n

/-- The island id built by `Page.addIsland`:
`fmt.Sprintf("%s_%d", p.id, len(p.islands))`. -/
def islandId (pageId : List Char) (numIslands : Nat) : List Char :=
  pageId ++ '_' :: natDec numIslands

/-- A page as the builder sees it for the islands pipeline: its id
(`shortHash` of the relative path, set in `Builder.addPage`), its rendered
`Contents`, and its islands in creation order. -/
structure BPage where
  id : List Char
  Contents : List Char
  islands : List Island
deriving DecidableEq

/-- `Page.addIsland`: creates an island whose id is the page id joined with
the current number of islands on the page, hydration type `Static`, and
appends it to the page. -/
def addIsland (p : BPage) (entryPoint : List Char) : BPage × Island :=
  let island : Island :=
    { Id := islandId p.id p.islands.length
      Type' := HydrationType.Static
      EntryPoint := entryPoint
      ClientOnly := false }
  ({ p with islands := p.islands ++ [island] }, island)

/-- Adding `n` islands in sequence to a page (each one via `addIsland`). -/
def addIslands (p : BPage) : List (List Char) → BPage
  | [] => p
  | e :: es => addIslands (addIsland p e).1 es

/-! ## `Island.Marker` and `Island.String`

```go
func (i *Island) String() string {
    if i.Type == Static {
        return i.Marker()
    } else if i.ClientOnly {
        return fmt.Sprintf(`<div id="%s"></div>`, i.Id)
    } else {
        return fmt.Sprintf(`<div id="%s">%s</div>`, i.Id, i.Marker())
    }
}

func (i *Island) Marker() string {
    return fmt.Sprintf("<!-- %s -->", i.Id)
}
```
-/

/-- `Island.Marker`: the placeholder HTML comment for an island. -/
def Island.Marker (i : Island) : List Char :=
  chars "<!-- " ++ i.Id ++ chars " -->"

/-- `Island.String`: the markup a template produces for an island.  Note the
`Type == Static` test comes first, before the `ClientOnly` test. -/
def Island.String (i : Island) : List Char :=
  if i.Type' = HydrationType.Static then i.Marker
  else if i.ClientOnly then
    chars "<div id=\"" ++ i.Id ++ chars "\"></div>"
  else
    chars "<div id=\"" ++ i.Id ++ chars "\">" ++ i.Marker ++ chars "</div>"

/-! ## `Builder.staticIslands` and `Page.clientIslands`

```go
func (b *Builder) staticIslands() []*islands.Island {
    staticIslands := []*islands.Island{}
    for _, p := range b.pages {
        for _, i := range p.islands {
            if !i.ClientOnly {
                staticIslands = append(staticIslands, i)
            }
        }
    }
    return staticIslands
}

func (p *Page) clientIslands() []*islands.Island {
    clientIslands := []*islands.Island{}
    for _, i := range p.islands {
        if i.Type != islands.Static {
            clientIslands = append(clientIslands, i)
        }
    }
    return clientIslands
}
```
-/

/-- `Builder.staticIslands`: all islands of all pages with `ClientOnly`
false; these are the islands compiled into the synthetic static-render
module passed to `islands.Render`. -/
def staticIslands (pages : List BPage) : List Island :=
  pages.flatMap fun p => p.islands.filter fun i => !i.ClientOnly

/-- `Page.clientIslands`: the page's islands whose hydration type is not
`Static`; these need client-side code. -/
def clientIslands (p : BPage) : List Island :=
  p.islands.filter fun i => i.Type' ≠ HydrationType.Static

/-! ## Framework detection (`detectFramework`)

```go
func detectFramework(frameworks []*Framework, importUrl string) (*Framework, error) {
    for _, f := range frameworks {
        ok, _ := regexp.MatchString(f.explicitExt, importUrl)
        if ok {
            return f, nil
        }
    }
    for _, f := range frameworks {
        if ok, _ := regexp.MatchString(f.implicitExt, importUrl); ok {
            return f, nil
        }
    }
    return nil, fmt.Errorf("no islands framework found for: %s", importUrl)
}
```

A `Framework` carries two anchored regular expression patterns: an explicit
marker pattern (`\.preact.(tsx?|jsx?)$`, `\.vanilla.(tsx?|jsx?)$`) and an
implicit bare-extension pattern (`\.(tsx|jsx)$`, `\.(ts|js)$`).  The
patterns are embedded as decidable suffix matchers with the same semantics
as `regexp.MatchString` on these patterns. -/

/-- A framework adapter: its id and the two match predicates derived from
its `explicitExt` and `implicitExt` regular expressions. -/
structure Framework where
  Id : List Char
  explicitExt : List Char → Bool
  implicitExt : List Char → Bool

/-- Does `l` end with `suf`?  (`regexp` `$`-anchored literal match.) -/
def endsWith (l suf : List Char) : Bool := suf.isSuffixOf l

/-- Matcher for the explicit-marker patterns
`\.MARKER.(tsx?|jsx?)$`: the string ends with `.MARKER`, then one arbitrary
character (the unescaped `.` in the pattern), then one of `ts`, `tsx`, `js`,
`jsx`.  `marker` is e.g. `".preact"`. -/
def matchMarkerExt (marker : List Char) (l : List Char) : Bool :=
  [chars "ts", chars "tsx", chars "js", chars "jsx"].any fun e =>
    decide (marker.length + 1 + e.length ≤ l.length) &&
      endsWith (l.take (l.length - (1 + e.length))) marker && endsWith l e

/-- The `Preact` framework adapter (`explicitExt` is `\.preact.(tsx?|jsx?)$`,
`implicitExt` is `\.(tsx|jsx)$`). -/
def Preact : Framework :=
  { Id := chars "preact"
    explicitExt := matchMarkerExt (chars ".preact")
    implicitExt := fun l => endsWith l (chars ".tsx") || endsWith l (chars ".jsx") }

/-- The `Vanilla` framework adapter (`explicitExt` is
`\.vanilla.(tsx?|jsx?)$`, `implicitExt` is `\.(ts|js)$`). -/
def Vanilla : Framework :=
  { Id := chars "vanilla"
    explicitExt := matchMarkerExt (chars ".vanilla")
    implicitExt := fun l => endsWith l (chars ".ts") || endsWith l (chars ".js") }

/-- `detectFramework`: one pass over all adapters testing the explicit
marker pattern, then a second pass testing the implicit extension pattern;
the first match of each pass wins.  `none` models the Go error return. -/
def detectFramework (frameworks : List Framework) (importUrl : List Char) :
    Option Framework :=
  match frameworks.find? fun f => f.explicitExt importUrl with
  | some f => some f
  | none => frameworks.find? fun f => f.implicitExt importUrl

/-! ## Go `strings.Replace` / `strings.ReplaceAll`

`strings.Replace(s, old, new, 1)` replaces the first (leftmost) occurrence
of `old` in `s` by `new`; `strings.ReplaceAll` replaces all non-overlapping
occurrences, scanning left to right.  (For an empty `old`, Go inserts `new`
at the start; no repository call site ever passes an empty pattern, and the
embedding follows Go for the first-occurrence case.) -/

/-- Replace the leftmost occurrence of the non-empty pattern `pat`. -/
def replaceFirstAux (pat rep : List Char) : List Char → List Char
  | [] => []
  | c :: t =>
    if pat.isPrefixOf (c :: t) then rep ++ (c :: t).drop pat.length
    else c :: replaceFirstAux pat rep t

/-- Go's `strings.Replace(s, pat, rep, 1)`. -/
def replaceFirst (s pat rep : List Char) : List Char :=
  if pat.isEmpty then rep ++ s else replaceFirstAux pat rep s

/-- Replace all non-overlapping occurrences of the non-empty pattern
`pat`, scanning left to right.  The first argument is recursion fuel; the
length of the scanned string is always enough, since every step consumes
at least one character. -/
def replaceAllCore (pat rep : List Char) : Nat → List Char → List Char
  | 0, l => l
  | _ + 1, [] => []
  | fuel + 1, c :: t =>
    if pat.isPrefixOf (c :: t) then
      rep ++ replaceAllCore pat rep fuel (t.drop (pat.length - 1))
    else c :: replaceAllCore pat rep fuel t

/-- Go's `strings.ReplaceAll(s, pat, rep)` for a non-empty pattern (the
only way the repository uses it; the empty-pattern case is mapped to the
identity and never relied upon). -/
def replaceAll (s pat rep : List Char) : List Char :=
  match pat with
  | [] => s
  | p :: ps => replaceAllCore (p :: ps) rep s.length s

/-! ## `Builder.renderIslands` splice-back

```go
for _, page := range b.pages {
    for _, island := range page.islands {
        if html, ok := elements[island.Id]; ok {
            page.Contents = strings.Replace(page.Contents, island.Marker(), html, 1)
        }
    }
}
```

`elements` is the static-render result map returned by `islands.Render`
(island id to rendered HTML); it is produced by the V8 run and is passed
here as an explicit association list. -/

/-- The inner loop of `Builder.renderIslands` for one page: for every
island (in order), if its id is in the result map, splice the rendered HTML
over the first occurrence of its marker. -/
def renderIslandsPage (elements : List (List Char × List Char)) (p : BPage) :
    BPage :=
  { p with
    Contents := p.islands.foldl
      (fun c i =>
        match List.lookup i.Id elements with
        | some html => replaceFirst c i.Marker html
        | none => c)
      p.Contents }

/-- `Builder.renderIslands`, after `islands.Render` returned `elements`. -/
def renderIslands (elements : List (List Char × List Char))
    (pages : List BPage) : List BPage :=
  pages.map (renderIslandsPage elements)

/-! ## `Builder.bundleIslands` and `islands.Bundle`

The builder collects, per page id, the islands needing client code, hands
them to `islands.Bundle` (esbuild), and splices `<script type="module">`
and `<link rel="stylesheet">` tags into the pages that got a bundle:

```go
islandsByPage := map[string][]*islands.Island{}
for _, p := range b.pages {
    clientIslands := p.clientIslands()
    if len(clientIslands) > 0 {
        islandsByPage[p.id] = p.clientIslands()
    }
}
bundles, err := islands.Bundle(islands.BundleOptions{ ... IslandsByPage: islandsByPage ... })
...
for _, page := range b.pages {
    if bundle, ok := bundles[page.id]; ok {
        ... scriptTags / linkTags ...
        page.Contents = strings.Replace(page.Contents, "</head>", linkTags.String()+"</head>", 1)
        page.Contents = strings.Replace(page.Contents, "</body>", scriptTags.String()+"</body>", 1)
    }
}
```

`islands.Bundle` creates one esbuild entry point per key of
`IslandsByPage` and initialises `bundles[pageId]` for exactly those keys;
it then files every esbuild output whose path matches `bundle-(\w+)` under
the extracted page id.  esbuild itself is external: its output file paths
are an oracle parameter `outputs`. -/

/-- Go map assignment `m[k] = v` on an association list: overwrite the
existing entry or append a new one. -/
def mapSet (m : List (List Char × α)) (k : List Char) (v : α) :
    List (List Char × α) :=
  if m.any fun kv => kv.1 = k then
    m.map fun kv => if kv.1 = k then (k, v) else kv
  else m ++ [(k, v)]

/-- The `islandsByPage` map built by `Builder.bundleIslands`. -/
def islandsByPage (pages : List BPage) : List (List Char × List Island) :=
  pages.foldl
    (fun m p =>
      if (clientIslands p).length > 0 then mapSet m p.id (clientIslands p)
      else m)
    []

/-- The esbuild entry points created by `islands.Bundle`: one per key of
`IslandsByPage` (input path `pageId?browser`, output path `pageId`). -/
def entryPointIds (pages : List BPage) : List (List Char) :=
  (islandsByPage pages).map fun kv => kv.1

/-- `islands.BundleResult`: script and style asset paths for one page. -/
structure BundleResult where
  Scripts : List (List Char)
  Styles : List (List Char)
deriving DecidableEq

/-- Go `\w` (word character): `[0-9A-Za-z_]`. -/
def isWordChar (c : Char) : Bool :=
  ('0' ≤ c && c ≤ '9') || ('a' ≤ c && c ≤ 'z') || ('A' ≤ c && c ≤ 'Z') || c = '_'

/-- Leftmost match of the `bundle-(\w+)` pattern used to recover the page
id from an esbuild output path: the captured group. -/
def bundleIdOf : List Char → Option (List Char)
  | [] => none
  | c :: t =>
    if (chars "bundle-").isPrefixOf (c :: t) then
      let w := ((c :: t).drop 7).takeWhile isWordChar
      if w.isEmpty then bundleIdOf t else some w
    else bundleIdOf t

/-- Go `path.Ext`: the suffix of the last path element starting at its last
dot, or empty when there is none. -/
def pathExt (l : List Char) : List Char :=
  match l.reverse.dropWhile fun c => c ≠ '.' && c ≠ '/' with
  | '.' :: _ => '.' :: (l.reverse.takeWhile fun c => c ≠ '.' && c ≠ '/').reverse
  | _ => []

/-- Go `strings.TrimPrefix`. -/
def trimPre (l pre : List Char) : List Char :=
  if pre.isPrefixOf l then l.drop pre.length else l

/-- The output-collection loop of `islands.Bundle`: file each output path
matching `bundle-(\w+)` under the extracted page id, as a script for `.js`
and a style for `.css`.  Indexing `bundles[pageId]` for an id that is not a
key would be a nil-map dereference panic in Go, modelled as `none`. -/
def collectOutputs (outDir : List Char)
    (bundles : List (List Char × BundleResult)) :
    List (List Char) → Option (List (List Char × BundleResult))
  | [] => some bundles
  | file :: rest =>
    match bundleIdOf file with
    | none => collectOutputs outDir bundles rest
    | some pageId =>
      match List.lookup pageId bundles with
      | none => none
      | some b =>
        let href := trimPre file outDir
        let b' :=
          if pathExt file = chars ".js" then
            { b with Scripts := b.Scripts ++ [href] }
          else if pathExt file = chars ".css" then
            { b with Styles := b.Styles ++ [href] }
          else b
        collectOutputs outDir (mapSet bundles pageId b') rest

/-- One injected `<script type="module" src="..."></script>` tag plus the
newline the builder appends. -/
def scriptTag (src : List Char) : List Char :=
  chars "<script type=\"module\" src=\"" ++ src ++ chars "\"></script>" ++ ['\n']

/-- One injected `<link rel="stylesheet" href="...">` tag plus newline. -/
def linkTag (href : List Char) : List Char :=
  chars "<link rel=\"stylesheet\" href=\"" ++ href ++ chars "\">" ++ ['\n']

/-- The tag-injection loop of `Builder.bundleIslands` for one page: only
pages whose id is a key of `bundles` are touched. -/
def injectTags (bundles : List (List Char × BundleResult)) (p : BPage) :
    BPage :=
  match List.lookup p.id bundles with
  | none => p
  | some b =>
    let scriptTags := (b.Scripts.map scriptTag).flatten
    let linkTags := (b.Styles.map linkTag).flatten
    let c1 := replaceFirst p.Contents (chars "</head>") (linkTags ++ chars "</head>")
    let c2 := replaceFirst c1 (chars "</body>") (scriptTags ++ chars "</body>")
    { p with Contents := c2 }

/-- `Builder.bundleIslands` explained over the esbuild output oracle
`outputs`: build `islandsByPage`, initialise one bundle per entry point,
collect outputs, then inject tags into the pages. -/
def bundleIslands (outDir : List Char) (outputs : List (List Char))
    (pages : List BPage) : Option (List BPage) :=
  let bundles0 := (islandsByPage pages).map fun kv => (kv.1, BundleResult.mk [] [])
  match collectOutputs outDir bundles0 outputs with
  | none => none
  | some bundles => some (pages.map (injectTags bundles))

/-! ## The cdn module cache: `downloadWithCache`

```go
func downloadWithCache(href string) (string, error) {
    cachedModulesLock.Lock()
    mod, ok := cachedModules[href]
    cachedModulesLock.Unlock()
    if ok {
        return mod, nil
    }
    ...
    res, err := http.Get(href)
    ...
    cachedModulesLock.Lock()
    cachedModules[href] = contents
    ...
    cachedModulesLock.Unlock()
    return contents, nil
}
```

The process-wide `cachedModules` map is threaded as explicit state; the
network is the oracle `fetch`.  The returned `Bool` records whether the
call performed a network fetch. -/

/-- One call to `downloadWithCache`: on a cache hit, return the cached
contents with the state unchanged and no fetch; on a miss, fetch, record
the result in the cache, and return it. -/
def downloadWithCache (fetch : List Char → List Char)
    (cache : List (List Char × List Char)) (href : List Char) :
    List Char × List (List Char × List Char) × Bool :=
  match List.lookup href cache with
  | some mod => (mod, cache, false)
  | none =>
    let contents := fetch href
    (contents, mapSet cache href contents, true)

/-- A sequence of `downloadWithCache` calls in one process: returns the
per-call `(result, fetched)` trace and the final cache. -/
def runDownloads (fetch : List Char → List Char)
    (cache : List (List Char × List Char)) :
    List (List Char) →
      List (List Char × Bool) × List (List Char × List Char)
  | [] => ([], cache)
  | u :: us =>
    let r := downloadWithCache fetch cache u
    let rest := runDownloads fetch r.2.1 us
    ((r.1, r.2.2) :: rest.1, rest.2)

/-! ## `lessAny` and the `sortBy` template function

```go
func lessAny(a any, b any) bool {
    s1, okS1 := a.(string)
    s2, okS2 := b.(string)
    if okS1 && okS2 {
        return s1 < s2
    }
    i1, okI1 := a.(int)
    i2, okI2 := b.(int)
    if okI1 && okI2 {
        return i1 < i2
    }
    return false
}
```

Front-matter values are dynamically typed (`any`); they are modelled by a
closed sum covering the cases the claims mention.  Go compares strings
bytewise; on UTF-8 byte slices this is exactly code-point lexicographic
order, which `listLt` implements. -/

/-- A dynamically typed front-matter value (`any`). `float`, `boolean`,
`nil` and `other` all fall through both type assertions in `lessAny`; the
payloads are irrelevant to it. -/
inductive GoVal where
  | str (s : List Char)
  | int (n : Int)
  | float (bits : Nat)
  | boolean (b : Bool)
  | nil
  | other (tag : Nat)
deriving DecidableEq

/-- Go `<` on strings: lexicographic order. -/
def listLt : List Char → List Char → Bool
  | _, [] => false
  | [], _ :: _ => true
  | a :: as, b :: bs => if a = b then listLt as bs else decide (a.toNat < b.toNat)

/-- `lessAny` from `internal/builder/helpers.go`. -/
def lessAny : GoVal → GoVal → Bool
  | .str s1, .str s2 => listLt s1 s2
  | .int i1, .int i2 => decide (i1 < i2)
  | _, _ => false

/-- A page as the `sortBy` template function sees it: only its front
matter (`Data`) matters.  A missing key yields `nil`, as a Go map read
does for an interface value. -/
def dataGet (data : List (List Char × GoVal)) (key : List Char) : GoVal :=
  match List.lookup key data with
  | some v => v
  | none => GoVal.nil

/-- The `sortBy` template function:
`sort.SliceStable(pages, func(i, j) { return lessAny(a, b) })`, modelled by
a stable merge sort (`le x y` means `x` need not come after `y`, i.e.
`!lessAny y x`). -/
def sortBy (key : List Char) (pages : List (List (List Char × GoVal))) :
    List (List (List Char × GoVal)) :=
  pages.mergeSort fun x y => !lessAny (dataGet y key) (dataGet x key)

/-! ## `internal/errors/errors.go`: `SourceError`, its terminal rendering,
and the HTML rendering

The ANSI color codes of the terminal renderer:

```go
errorColor      = "\033[1;31m"
errorFocusColor = "\033[1m"
lineNumberColor = "\033[2m"
resetColor      = "\033[0m"
```
-/

def errorColor : List Char := chars "\x1b[1;31m"

def errorFocusColor : List Char := chars "\x1b[1m"

def lineNumberColor : List Char := chars "\x1b[2m"

def resetColor : List Char := chars "\x1b[0m"

/-- The `SourceError` struct of `internal/errors/errors.go`.  Go `int`
fields are modelled as `Int`. -/
structure SourceError where
  file : List Char
  virtual : Bool
  line : Int
  column : Int
  message : List Char
  details : List Char
  lineOffset : Int
  contents : List Char
deriving DecidableEq

/-- Go `strings.Split(s, "\n")`. -/
def splitLines : List Char → List (List Char)
  | [] => [[]]
  | c :: t =>
    let r := splitLines t
    if c = '\n' then [] :: r
    else
      match r with
      | [] => [[c]]
      | h :: t' => (c :: h) :: t'

/-- Go decimal formatting of an `Int` (`%d`). -/
def intDec (n : Int) : List Char :=
  if n < 0 then '-' :: natDec (-n).toNat else natDec n.toNat

/-- Go `%3d`: decimal, right-aligned in (at least) three columns. -/
def fmt3d (n : Int) : List Char :=
  let s := intDec n
  List.replicate (3 - s.length) ' ' ++ s

/-- The inclusive integer range `lo..hi` of Go's
`for i := lo; i <= hi; i++`. -/
def intRange (lo hi : Int) : List Int :=
  (List.range (hi + 1 - lo).toNat).map fun k => lo + k

/-- Go `path.IsAbs` (a path is absolute when it starts with a slash). -/
def isAbs : List Char → Bool
  | '/' :: _ => true
  | _ => false

/-- A piece of a rendering: literal text, or one of the four ANSI color
codes.  The terminal renderer emits exactly such an alternation, and the
HTML renderer rewrites the codes; keeping the alternation explicit is what
lets us compare the two renderings' textual content. -/
inductive Seg where
  | txt (t : List Char)
  | code (c : List Char)
deriving DecidableEq

/-- The characters a segment contributes to the rendered string. -/
def Seg.content : Seg → List Char
  | .txt t => t
  | .code c => c

/-- Flattening a segment list into the rendered string. -/
def flattenSegs (segs : List Seg) : List Char :=
  (segs.map Seg.content).flatten

/-- The pieces written by `SourceError.Error`, in the order the Go method
writes them into its `strings.Builder`:

```go
// contents/file fix-ups, then:
sb.WriteString(errorColor + e.message + resetColor + "\n\n")
sb.WriteString(errorFocusColor)
if e.column > 0 { sb.WriteString(fmt.Sprintf("%s:%d:%d", file, e.line, e.column))
} else { sb.WriteString(fmt.Sprintf("%s:%d", file, e.line)) }
sb.WriteString(resetColor); sb.WriteByte('\n')
for i := start; i <= end; i++ {
    color := lineNumberColor
    if i == line { color = errorColor }
    n := i + e.lineOffset + 1
    sb.WriteString(fmt.Sprintf("%s%3d%s %s\n", color, n, resetColor, lines[i]))
    if i == line && e.column > 0 {
        padding := strings.Repeat(" ", e.column+4)
        sb.WriteString(fmt.Sprintf("%s%s^%s\n", errorColor, padding, resetColor))
    }
}
if len(e.details) > 0 { sb.WriteString(fmt.Sprintf("\n%s\n", e.details)) }
```

`disk` is the file-system oracle for the `os.ReadFile` fallback, and
`relCwd` the `relativeToCwd` oracle (it depends on `os.Getwd`). -/
def errSegs (disk : List Char → Option (List Char))
    (relCwd : List Char → List Char) (e : SourceError) : List Seg :=
  let contents :=
    if !e.virtual && e.contents.isEmpty then
      match disk e.file with
      | some data => data
      | none => e.contents
    else e.contents
  let file :=
    if isAbs e.file then relCwd e.file
    else if e.virtual then '<' :: e.file ++ ['>']
    else e.file
  let lines := splitLines contents
  let line : Int := e.line - e.lineOffset - 1
  let start0 := line - 3
  let start := if start0 < 0 then 0 else start0
  let end0 := line + 3
  let endI := if end0 ≥ lines.length then (lines.length : Int) - 1 else end0
  let fileLoc :=
    if e.column > 0 then
      file ++ ':' :: intDec e.line ++ ':' :: intDec e.column
    else file ++ ':' :: intDec e.line
  [Seg.code errorColor, Seg.txt e.message, Seg.code resetColor,
      Seg.txt (chars "\n\n"),
      Seg.code errorFocusColor, Seg.txt fileLoc, Seg.code resetColor,
      Seg.txt ['\n']]
    ++ (intRange start endI).flatMap (fun i =>
        let color := if i = line then errorColor else lineNumberColor
        let n := i + e.lineOffset + 1
        let text := lines.getD i.toNat []
        [Seg.code color, Seg.txt (fmt3d n), Seg.code resetColor,
            Seg.txt (' ' :: text ++ ['\n'])]
          ++ (if i = line ∧ e.column > 0 then
              [Seg.code errorColor,
                  Seg.txt (List.replicate (e.column + 4).toNat ' ' ++ ['^']),
                  Seg.code resetColor, Seg.txt ['\n']]
            else []))
    ++ (if e.details.isEmpty then []
      else [Seg.txt ['\n'], Seg.txt e.details, Seg.txt ['\n']])

/-- `SourceError.Error`: the terminal rendering. -/
def SourceError.error (disk : List Char → Option (List Char))
    (relCwd : List Char → List Char) (e : SourceError) : List Char :=
  flattenSegs (errSegs disk relCwd e)

/-! ### The HTML rendering (`Html`)

```go
var htmlColorCodes = map[string]string{
    errorColor:      `<span style="color: #e41010; font-weight: bold">`,
    lineNumberColor: `<span style="color: #adadad">`,
    errorFocusColor: `<span style="font-weight: bold">`,
    resetColor:      `</span>`,
}

func Html(e error) string {
    str := e.Error()
    str = html.EscapeString(str)
    for color, tag := range htmlColorCodes {
        str = strings.ReplaceAll(str, color, tag)
    }
    ...
    return fmt.Sprintf(`<pre style="%s">%s</pre>`, style.String(), str)
}
```
-/

/-- Go `html.EscapeString` on one character: `&`, `'`, `<`, `>` and `"`
become entities, everything else passes through. -/
def escChar (c : Char) : List Char :=
  if c = '&' then chars "&amp;"
  else if c = '\'' then chars "&#39;"
  else if c = '<' then chars "&lt;"
  else if c = '>' then chars "&gt;"
  else if c = '"' then chars "&#34;"
  else [c]

/-- Go `html.EscapeString`. -/
def escape (l : List Char) : List Char := l.flatMap escChar

def tagError : List Char := chars "<span style=\"color: #e41010; font-weight: bold\">"

def tagLineNumber : List Char := chars "<span style=\"color: #adadad\">"

def tagFocus : List Char := chars "<span style=\"font-weight: bold\">"

def tagClose : List Char := chars "</span>"

/-- The `htmlColorCodes` rewriting loop.  Go iterates the map in an
unspecified order; since no color code overlaps another and no tag contains
a color code, every order produces the same string, and the embedding fixes
the source listing order. -/
def replaceColors (s : List Char) : List Char :=
  replaceAll
    (replaceAll (replaceAll (replaceAll s errorColor tagError)
        lineNumberColor tagLineNumber)
      errorFocusColor tagFocus)
    resetColor tagClose

/-- The `style` attribute built from the `styles` map (`overflow-x`,
`font-family`, `margin`), fixed in source listing order. -/
def styleAttr : List Char :=
  chars "overflow-x:auto;font-family:Consolas,Menlo,Monaco,monospace;margin:32px;"

/-- `Html` from `internal/errors/errors.go`, applied to the already
rendered `e.Error()` string. -/
def Html (s : List Char) : List Char :=
  chars "<pre style=\"" ++ styleAttr ++ chars "\">"
    ++ replaceColors (escape s) ++ chars "</pre>"

/-! ### Content extraction for comparing the two renderings

These functions are the specification side of the comparison (they are not
translations of Go code): `stripAnsi` erases the four color codes from the
terminal rendering, `unwrapPre` peels the fixed `<pre style="...">`
wrapper off the HTML rendering, and `stripTags` erases the four HTML
markup strings that replaced the codes. -/

/-- Erase the four ANSI color codes. -/
def stripAnsi (s : List Char) : List Char :=
  replaceAll
    (replaceAll (replaceAll (replaceAll s errorColor []) lineNumberColor [])
      errorFocusColor [])
    resetColor []

/-- Peel off the `<pre style="...">` ... `</pre>` wrapper. -/
def unwrapPre (h : List Char) : List Char :=
  let body := h.drop (chars "<pre style=\"" ++ styleAttr ++ chars "\">").length
  body.take (body.length - (chars "</pre>").length)

/-- Erase the four HTML markup strings substituted for the color codes. -/
def stripTags (h : List Char) : List Char :=
  replaceAll
    (replaceAll (replaceAll (replaceAll h tagError []) tagLineNumber [])
      tagFocus [])
    tagClose []

/-- The textual content of the HTML rendering: body without markup. -/
def contentOfHtml (h : List Char) : List Char := stripTags (unwrapPre h)

/-- The four ANSI color codes emitted by the terminal renderer. -/
def ansiCodes : List (List Char) :=
  [errorColor, lineNumberColor, errorFocusColor, resetColor]

/-- The four HTML markup strings of `htmlColorCodes`. -/
def htmlTags : List (List Char) := [tagError, tagLineNumber, tagFocus, tagClose]

/-- The HTML markup `htmlColorCodes` substitutes for a color code. -/
def tagOf (c : List Char) : List Char :=
  if c = errorColor then tagError
  else if c = lineNumberColor then tagLineNumber
  else if c = errorFocusColor then tagFocus
  else tagClose

/-- HTML-escape the text of a segment (color codes are untouched by
escaping). -/
def escapeSeg : Seg → Seg
  | Seg.txt t => Seg.txt (escape t)
  | Seg.code c => Seg.code c

/-- Swap a color-code segment for its HTML markup segment. -/
def colorSeg : Seg → Seg
  | Seg.txt t => Seg.txt t
  | Seg.code c => Seg.code (tagOf c)

/-- Erase a code segment (content extraction). -/
def stripSeg : Seg → Seg
  | Seg.txt t => Seg.txt t
  | Seg.code _ => Seg.txt []

/-! ## `V8Error`

```go
func V8Error(err error, name string, source []byte, sourceMap []byte, dir string) error {
    jserr, ok := err.(*v8go.JSError)
    ...
    sm, _ := sourcemap.Parse(name, sourceMap)
    location := jserr.Location
    contents := string(source)
    virtual := true
    m := v8LocationRegex.FindStringSubmatch(location)  // (.+):(\d+):(\d+)
    file := m[1]; line := Atoi(m[2]); column := Atoi(m[3])
    if _file, _, _line, _column, ok := sm.Source(line-1, column-1); ok {
        file = path.Join(dir, _file); line = _line; column = _column
        contents = ""            // read the file later instead
        virtual = false
    }
    stackTrace := v8StackFrameRegex.ReplaceAllStringFunc(jserr.StackTrace, func(s string) string {
        m := v8StackFrameRegex.FindStringSubmatch(s)
        fn := m[1]; file := path.Join(dir, m[2]); line := Atoi(m[3]); column := Atoi(m[4])
        if _file, _, _line, _column, ok := sm.Source(line-1, column-1); ok {
            file = relativeToCwd(path.Join(dir, _file)); line = _line; column = _column
        }
        if len(fn) > 0 { return fmt.Sprintf("at %s (%s:%d:%d)", fn, file, line, column) }
        return fmt.Sprintf("at %s:%d:%d", file, line, column)
    })
    return &SourceError{ file: file, message: "v8: " + jserr.Message, details: stackTrace,
        contents: contents, line: line, column: column, virtual: virtual }
}
```

The source map (`sm.Source`), `path.Join` and `relativeToCwd` are external
(library / file-system dependent) and are passed as oracles.  The
generated-code location has already been split by the `(.+):(\d+):(\d+)`
regular expression, and the stack trace by the frame regular expression:
the trace is the alternation of unmatched text and matched frames. -/

/-- One stack frame matched by `v8StackFrameRegex`: the function name
(possibly empty) and the generated file/line/column. -/
structure V8Frame where
  fn : List Char
  file : List Char
  line : Int
  column : Int
deriving DecidableEq

/-- A piece of `jserr.StackTrace`: text the frame regular expression does
not match (left unchanged by `ReplaceAllStringFunc`), or a matched frame. -/
inductive StackItem where
  | raw (t : List Char)
  | frame (f : V8Frame)
deriving DecidableEq

/-- The per-frame rewrite performed inside `ReplaceAllStringFunc`. -/
def renderFrame (sm : Int → Int → Option (List Char × Int × Int))
    (join : List Char → List Char → List Char)
    (relCwd : List Char → List Char) (dir : List Char) (m : V8Frame) :
    List Char :=
  let joined := join dir m.file
  let resolved :=
    match sm (m.line - 1) (m.column - 1) with
    | some (f, l, c) => (relCwd (join dir f), l, c)
    | none => (joined, m.line, m.column)
  if m.fn.isEmpty then
    chars "at " ++ resolved.1 ++ ':' :: intDec resolved.2.1
      ++ ':' :: intDec resolved.2.2
  else
    chars "at " ++ m.fn ++ chars " (" ++ resolved.1
      ++ ':' :: intDec resolved.2.1 ++ ':' :: intDec resolved.2.2 ++ [')']

/-- `V8Error`, applied to the parsed generated location `loc`
(file, line, column from `v8LocationRegex`), the message, and the split
stack trace. -/
def V8Error (sm : Int → Int → Option (List Char × Int × Int))
    (join : List Char → List Char → List Char)
    (relCwd : List Char → List Char) (dir : List Char)
    (source : List Char) (msg : List Char)
    (loc : List Char × Int × Int) (stack : List StackItem) : SourceError :=
  let stackTrace :=
    (stack.map fun item =>
        match item with
        | .raw t => t
        | .frame f => renderFrame sm join relCwd dir f).flatten
  match sm (loc.2.1 - 1) (loc.2.2 - 1) with
  | some (f, l, c) =>
    { file := join dir f
      line := l
      column := c
      contents := []
      virtual := false
      message := chars "v8: " ++ msg
      details := stackTrace
      lineOffset := 0 }
  | none =>
    { file := loc.1
      line := loc.2.1
      column := loc.2.2
      contents := source
      virtual := true
      message := chars "v8: " ++ msg
      details := stackTrace
      lineOffset := 0 }

/-! ## Specification-side predicates and helpers

Everything below is used to state and prove properties; none of it
translates Go code. -/

/-- `Builder.addPage` as far as the islands pipeline is concerned: the page
id is `shortHash` of the relative path, contents and islands start empty
(`none` when `shortHash` panics). -/
def addPage (relPath : List Char) : Option BPage :=
  (shortHash relPath).map fun h => { id := h, Contents := [], islands := [] }

/-- The sixteen lowercase hexadecimal digit characters. -/
def lowercaseHex : List Char := chars "0123456789abcdef"

/-- Decimal read-back of a digit string (to show `natDec` is injective). -/
def decVal (l : List Char) : Nat :=
  l.foldl (fun a c => a * 10 + (c.toNat - 48)) 0

/-- `a` and `b` witness the leftmost occurrence of `pat` in `s`. -/
def firstOccAt (s pat a b : List Char) : Prop :=
  s = a ++ pat ++ b ∧ ∀ a' b', s = a' ++ pat ++ b' → a.length ≤ a'.length

/-- What the splice puts at an island's marker slot: its rendered HTML if
the static-render result map has its id, otherwise the untouched marker. -/
def substOf (elements : List (List Char × List Char)) (i : Island) :
    List Char :=
  match List.lookup i.Id elements with
  | some html => html
  | none => i.Marker

/-- A page's contents laid out as text chunks alternating with the page's
island markers, in island order: `c₀ ++ M₁ ++ c₁ ++ … ++ Mₙ ++ cₙ`
(the template emits one marker per island, at the island's call site). -/
def layoutOrig : List Char → List (Island × List Char) → List Char
  | c0, [] => c0
  | c0, (i, c) :: rest => c0 ++ i.Marker ++ layoutOrig c rest

/-- The same layout after the splice: every mapped island's slot holds its
rendered HTML, every unmapped island's slot keeps its marker. -/
def layoutDone (elements : List (List Char × List Char)) :
    List Char → List (Island × List Char) → List Char
  | c0, [] => c0
  | c0, (i, c) :: rest =>
    c0 ++ substOf elements i ++ layoutDone elements c rest

/-- Each marker slot is the leftmost occurrence of that marker at its
processing step: the marker does not also occur — even straddling a chunk
boundary — anywhere in the already-processed part of the string, which is
the accumulated prefix `Q` extended by all but the marker's last
character.  (In a real build this holds because each marker is emitted
exactly once and carries a fresh hash-derived id that page text and
rendered HTML never reproduce.) -/
def SpliceOK (elements : List (List Char × List Char)) :
    List Char → List (Island × List Char) → Prop
  | _, [] => True
  | Q, (i, c) :: rest =>
    ¬ i.Marker <:+: Q ++ i.Marker.dropLast ∧
      SpliceOK elements (Q ++ substOf elements i ++ c) rest

instance instSpliceOKDec (elements : List (List Char × List Char)) :
    ∀ (Q : List Char) (pairs : List (Island × List Char)),
      Decidable (SpliceOK elements Q pairs)
  | _, [] => Decidable.isTrue trivial
  | Q, (i, c) :: rest =>
    have hr : Decidable
        (SpliceOK elements (Q ++ substOf elements i ++ c) rest) :=
      instSpliceOKDec elements _ rest
    inferInstanceAs (Decidable
      (¬ i.Marker <:+: Q ++ i.Marker.dropLast ∧
        SpliceOK elements (Q ++ substOf elements i ++ c) rest))

/-- A string contains no escape character (`\x1b`), i.e. no ANSI codes can
start inside it. -/
def noEsc (l : List Char) : Prop := '\x1b' ∉ l

instance (l : List Char) : Decidable (noEsc l) :=
  inferInstanceAs (Decidable ('\x1b' ∉ l))

/-- A pattern system for the alignment lemmas: all patterns are non-empty,
start with the distinguished character `hc`, do not contain `hc` again,
and none is a proper prefix of another. -/
def PatsOK (hc : Char) (pats : List (List Char)) : Prop :=
  (∀ p ∈ pats, p ≠ [] ∧ p.head? = some hc ∧ hc ∉ p.tail) ∧
    ∀ p ∈ pats, ∀ q ∈ pats, p <+: q → p = q

/-- One segment is well formed over a pattern system: a text segment
avoids `hc`, a code segment is one of the patterns. -/
def segOK (hc : Char) (pats : List (List Char)) : Seg → Prop
  | Seg.txt t => hc ∉ t
  | Seg.code c => c ∈ pats

instance (hc : Char) (pats : List (List Char)) (s : Seg) :
    Decidable (segOK hc pats s) :=
  match s with
  | Seg.txt t => inferInstanceAs (Decidable (hc ∉ t))
  | Seg.code c => inferInstanceAs (Decidable (c ∈ pats))

/-- Well-formed segment list over a pattern system: text segments avoid
`hc`, code segments are patterns. -/
def SegWF (hc : Char) (pats : List (List Char)) (segs : List Seg) : Prop :=
  ∀ s ∈ segs, segOK hc pats s

instance (hc : Char) (pats : List (List Char)) (segs : List Seg) :
    Decidable (SegWF hc pats segs) :=
  inferInstanceAs (Decidable (∀ s ∈ segs, segOK hc pats s))

instance (hc : Char) (pats : List (List Char)) : Decidable (PatsOK hc pats) :=
  inferInstanceAs (Decidable
    ((∀ p ∈ pats, p ≠ [] ∧ p.head? = some hc ∧ hc ∉ p.tail) ∧
      ∀ p ∈ pats, ∀ q ∈ pats, p <+: q → p = q))

/-- Replace the first `code p` segment by `txt rep` (the segment-level
picture of `strings.Replace(s, p, rep, 1)`). -/
def substFirstSeg (p rep : List Char) : List Seg → List Seg
  | [] => []
  | s :: rest =>
    if s = Seg.code p then Seg.txt rep :: rest
    else s :: substFirstSeg p rep rest

/-- The number of `code p` segments. -/
def countCodeSeg (segs : List Seg) (p : List Char) : Nat :=
  (segs.filter fun s => s = Seg.code p).length

/-- The `Builder.renderIslands` inner loop at the segment level. -/
def renderSegsPage (elements : List (List Char × List Char))
    (islands : List Island) (segs : List Seg) : List Seg :=
  islands.foldl
    (fun sg i =>
      match List.lookup i.Id elements with
      | some html => substFirstSeg i.Marker html sg
      | none => sg)
    segs

/-- Two front-matter values are comparable by `lessAny`: both strings or
both ints. -/
def comparable2 (a b : GoVal) : Prop :=
  (∃ s1 s2, a = GoVal.str s1 ∧ b = GoVal.str s2) ∨
    (∃ i1 i2, a = GoVal.int i1 ∧ b = GoVal.int i2)

/-- Does the `k`-th page of a `bundleIslands` result contain `pat`?
(`false` when the build failed or the index is out of range.) -/
def bundledPageContains (outDir : List Char) (outputs : List (List Char))
    (pages : List BPage) (k : Nat) (pat : List Char) : Bool :=
  match bundleIslands outDir outputs pages with
  | none => false
  | some out =>
    match out.get? k with
    | none => false
    | some p => decide (pat <:+: p.Contents)

/-! # Theorems -/

/-! ## C1: client-only islands and the static-render step -/

/-- C1, counterexample.  A `ClientOnly` island whose hydration mode is
`Static` does *not* get an empty container from `Island.String`: the
`Type == Static` branch runs first and yields the placeholder marker, which
(the island being excluded from the static-render set) is never replaced.
This refutes the claim's "even if its hydration mode is Static, the page
markup produced for it by Island.String is an empty container div". -/
theorem clientOnly_static_island_keeps_marker :
    Island.String
        { Id := chars "A", Type' := HydrationType.Static,
          EntryPoint := chars "./Counter.tsx", ClientOnly := true }
      = chars "<!-- A -->" ∧
    Island.String
        { Id := chars "A", Type' := HydrationType.Static,
          EntryPoint := chars "./Counter.tsx", ClientOnly := true }
      ≠ chars "<div id=\"A\"></div>" ∧
    Island.Marker
        { Id := chars "A", Type' := HydrationType.Static,
          EntryPoint := chars "./Counter.tsx", ClientOnly := true }
      <:+:
      Island.String
        { Id := chars "A", Type' := HydrationType.Static,
          EntryPoint := chars "./Counter.tsx", ClientOnly := true } ∧
    staticIslands
        [{ id := chars "4c95", Contents := chars "<!-- A -->",
            islands := [{ Id := chars "A",
                          Type' := HydrationType.Static,
                          EntryPoint := chars "./Counter.tsx",
                          ClientOnly := true }] }]
      = [] := by
  refine ⟨rfl, by decide, ⟨[], [], by decide⟩, rfl⟩

/-- C1, amended: for every island with `ClientOnly = true`, the
static-render step never includes it in the set handed to the synthetic
static-render module (`Builder.staticIslands` filters it out); its
`Island.String` markup is the empty container div keyed by the island id
*provided its hydration mode is not `Static`*; when the hydration mode is
`Static`, the `Type == Static` branch wins and the markup is the bare
placeholder marker instead. -/
theorem clientOnly_islands_never_static_rendered :
    (∀ (pages : List BPage) (i : Island),
      i.ClientOnly = true → i ∉ staticIslands pages) ∧
    (∀ i : Island, i.ClientOnly = true → i.Type' ≠ HydrationType.Static →
      Island.String i = chars "<div id=\"" ++ i.Id ++ chars "\"></div>") ∧
    (∀ i : Island, i.ClientOnly = true → i.Type' = HydrationType.Static →
      Island.String i = i.Marker) := by
  refine ⟨?_, ?_, ?_⟩
  · intro pages i hco hmem
    rw [staticIslands, List.mem_flatMap] at hmem
    obtain ⟨p, _, hp⟩ := hmem
    rw [List.mem_filter] at hp
    rw [hco] at hp
    simp at hp
  · intro i hco hns
    rw [Island.String, if_neg hns, if_pos hco]
  · intro i _ hs
    rw [Island.String, if_pos hs]

/-- C1, witness for `clientOnly_islands_never_static_rendered` at concrete
islands. -/
theorem clientOnly_islands_never_static_rendered_witness :
    (({ Id := chars "B", Type' := HydrationType.ClientOnLoad,
        EntryPoint := chars "./Counter.tsx", ClientOnly := true } : Island) ∉
      staticIslands
        [{ id := chars "4c95", Contents := [],
            islands := [{ Id := chars "B",
                          Type' := HydrationType.ClientOnLoad,
                          EntryPoint := chars "./Counter.tsx",
                          ClientOnly := true }] }]) ∧
    Island.String
        { Id := chars "B", Type' := HydrationType.ClientOnLoad,
          EntryPoint := chars "./Counter.tsx", ClientOnly := true }
      = chars "<div id=\"" ++ chars "B" ++ chars "\"></div>" ∧
    Island.String
        { Id := chars "C", Type' := HydrationType.Static,
          EntryPoint := chars "./Counter.tsx", ClientOnly := true }
      = Island.Marker
        { Id := chars "C", Type' := HydrationType.Static,
          EntryPoint := chars "./Counter.tsx", ClientOnly := true } := by
  refine ⟨clientOnly_islands_never_static_rendered.1 _ _ rfl,
    clientOnly_islands_never_static_rendered.2.1 _ rfl (by decide),
    clientOnly_islands_never_static_rendered.2.2 _ rfl rfl⟩

/-! ## C2: framework detection precedence -/

/-- C2: `detectFramework` runs a full pass over all adapters testing the
explicit marker pattern before any adapter's implicit pattern is tested,
and the first match wins: whenever some adapter's explicit pattern matches,
the selected adapter is the first explicit match — in particular an
adapter matched only implicitly cannot win against an explicit match. -/
theorem detectFramework_explicit_precedence
    (fs : List Framework) (url : List Char) (f : Framework)
    (hf : f ∈ fs) (hx : f.explicitExt url = true) :
    ∃ g, detectFramework fs url = some g ∧ g.explicitExt url = true ∧
      fs.find? (fun k => k.explicitExt url) = some g := by
  have h1 : (fs.find? fun k => k.explicitExt url).isSome := by
    rw [List.find?_isSome]
    exact ⟨f, hf, hx⟩
  obtain ⟨g, hg⟩ := Option.isSome_iff_exists.1 h1
  exact ⟨g, by rw [detectFramework, hg], by simpa using List.find?_some hg, hg⟩

/-- C2, witness: `explicit.preact.ts` carries Preact's explicit marker but
Vanilla's implicit `.ts` extension; with the registered adapter list
`[Preact, Vanilla]`, Preact is selected. -/
theorem detectFramework_precedence_witness :
    Preact.explicitExt (chars "explicit.preact.ts") = true ∧
    Vanilla.implicitExt (chars "explicit.preact.ts") = true ∧
    detectFramework [Preact, Vanilla] (chars "explicit.preact.ts")
      = some Preact ∧
    (∃ g, detectFramework [Preact, Vanilla] (chars "explicit.preact.ts")
        = some g ∧ g.explicitExt (chars "explicit.preact.ts") = true ∧
      [Preact, Vanilla].find?
          (fun k => k.explicitExt (chars "explicit.preact.ts")) = some g) := by
  refine ⟨by decide, by decide, rfl,
    detectFramework_explicit_precedence [Preact, Vanilla] _ Preact
      (by simp) (by decide)⟩

/-! ## Digit-string lemmas (for C7 and C9) -/

/-- The fuel argument of `digitsCore` is irrelevant once it is at least the
number being printed. -/
theorem digitsCore_fuel (base : Nat) (hb : 2 ≤ base) :
    ∀ n f1 f2, n ≤ f1 → n ≤ f2 →
      digitsCore base f1 n = digitsCore base f2 n := by
  intro n
  induction n using Nat.strong_induction_on with
  | _ n ih =>
    intro f1 f2 h1 h2
    match n, f1, f2 with
    | 0, 0, 0 => rfl
    | 0, 0, _ + 1 => simp [digitsCore]
    | 0, _ + 1, 0 => simp [digitsCore]
    | 0, _ + 1, _ + 1 => simp [digitsCore]
    | m + 1, a + 1, b + 1 =>
      have hd : (m + 1) / base < m + 1 := Nat.div_lt_self (by omega) hb
      have := ih ((m + 1) / base) hd a b (by omega) (by omega)
      simp only [digitsCore, if_neg (Nat.succ_ne_zero m)]
      rw [this]

/-- Unfolding equation for `hexAux` at a positive number. -/
theorem hexAux_pos (n : Nat) (h : n ≠ 0) :
    hexAux n = hexAux (n / 16) ++ [hexDigit (n % 16)] := by
  obtain ⟨m, rfl⟩ := Nat.exists_eq_succ_of_ne_zero h
  show digitsCore 16 (m + 1) (m + 1) = _
  simp only [digitsCore, if_neg (Nat.succ_ne_zero m)]
  rw [digitsCore_fuel 16 (by omega) ((m + 1) / 16) m ((m + 1) / 16)
    (by omega) (by omega)]
  rfl

/-- Unfolding equation for `natDecAux` at a positive number. -/
theorem natDecAux_pos (n : Nat) (h : n ≠ 0) :
    natDecAux n = natDecAux (n / 10) ++ [hexDigit (n % 10)] := by
  obtain ⟨m, rfl⟩ := Nat.exists_eq_succ_of_ne_zero h
  show digitsCore 10 (m + 1) (m + 1) = _
  simp only [digitsCore, if_neg (Nat.succ_ne_zero m)]
  rw [digitsCore_fuel 10 (by omega) ((m + 1) / 10) m ((m + 1) / 10)
    (by omega) (by omega)]
  rfl

/-- A number at least `16 ^ k` has more than `k` hex digits. -/
theorem hexAux_length_ge : ∀ k n, 16 ^ k ≤ n → k + 1 ≤ (hexAux n).length := by
  intro k
  induction k with
  | zero =>
    intro n hn
    have h1 : 1 ≤ n := by simpa using hn
    rw [hexAux_pos n (by omega)]
    simp
  | succ k ih =>
    intro n hn
    have hb : 0 < 16 ^ (k + 1) := Nat.pos_pow_of_pos _ (by omega)
    rw [hexAux_pos n (by omega), List.length_append]
    have h2 : 16 ^ k ≤ n / 16 := by
      rw [Nat.le_div_iff_mul_le (by omega)]
      calc 16 ^ k * 16 = 16 ^ (k + 1) := (Nat.pow_succ 16 k).symm
        _ ≤ n := hn
    have := ih (n / 16) h2
    simp only [List.length_cons, List.length_nil]
    omega

/-- Every character `hexAux` emits is a lowercase hex digit. -/
theorem hexAux_mem : ∀ n, ∀ c ∈ hexAux n, c ∈ lowercaseHex := by
  intro n
  induction n using Nat.strong_induction_on with
  | _ n ih =>
    match n with
    | 0 => intro c hc; simp [hexAux, digitsCore] at hc
    | m + 1 =>
      rw [hexAux_pos _ (Nat.succ_ne_zero m)]
      intro c hc
      rw [List.mem_append] at hc
      rcases hc with h | h
      · exact ih _ (Nat.div_lt_self (by omega) (by omega)) c h
      · rw [List.mem_singleton] at h
        subst h
        have h16 : (m + 1) % 16 < 16 := Nat.mod_lt _ (by omega)
        have hall : ∀ d < 16, hexDigit d ∈ lowercaseHex := by decide
        exact hall _ h16

/-! ## C9: `shortHash` output shape and its panic -/

/-- C9: `shortHash` formats the 32-bit FNV-1a hash as unpadded hexadecimal
and slices the first four characters.  For every input whose hash is at
least `0x1000` the result is exactly four lowercase hex characters; the
input `"gqot.md"` hashes to `0x7a9 = 1961 < 0x1000`, its hex string has
three characters, and the Go slice `[:4]` is out of range: `shortHash`
panics (`none`), aborting page creation in `Builder.addPage`. -/
theorem shortHash_four_hex_or_panic :
    (∀ s : List Char, 4096 ≤ fnv32a s →
      ∃ h, shortHash s = some h ∧ h.length = 4 ∧ ∀ c ∈ h, c ∈ lowercaseHex) ∧
    fnv32a (chars "gqot.md") = 1961 ∧
    shortHash (chars "gqot.md") = none ∧
    addPage (chars "gqot.md") = none := by
  refine ⟨?_, by decide, by decide, by decide⟩
  intro s hs
  have hne : fnv32a s ≠ 0 := by omega
  have hlen : 4 ≤ (natToHex (fnv32a s)).length := by
    rw [natToHex, if_neg hne]
    exact hexAux_length_ge 3 (fnv32a s) (by norm_num; omega)
  refine ⟨(natToHex (fnv32a s)).take 4, ?_, ?_, ?_⟩
  · rw [shortHash]
    simp only [hlen, if_pos]
  · rw [List.length_take]
    omega
  · intro c hc
    have hmem : c ∈ natToHex (fnv32a s) := List.mem_of_mem_take hc
    rw [natToHex, if_neg hne] at hmem
    exact hexAux_mem _ c hmem

/-- C9, witness: the hash of `"s.md"` is at least `0x1000`, so its short
hash is four lowercase hex characters. -/
theorem shortHash_four_hex_or_panic_witness :
    4096 ≤ fnv32a (chars "s.md") ∧
    ∃ h, shortHash (chars "s.md") = some h ∧ h.length = 4 ∧
      ∀ c ∈ h, c ∈ lowercaseHex :=
  ⟨by decide, shortHash_four_hex_or_panic.1 _ (by decide)⟩

/-! ## C7: island ids -/

theorem decVal_append_digit (xs : List Char) (c : Char) :
    decVal (xs ++ [c]) = decVal xs * 10 + (c.toNat - 48) := by
  rw [decVal, decVal, List.foldl_append]
  rfl

/-- Reading the decimal digits back recovers the number. -/
theorem decVal_natDecAux : ∀ n, decVal (natDecAux n) = n := by
  intro n
  induction n using Nat.strong_induction_on with
  | _ n ih =>
    match n with
    | 0 => rfl
    | m + 1 =>
      rw [natDecAux_pos _ (Nat.succ_ne_zero m), decVal_append_digit,
        ih _ (Nat.div_lt_self (by omega) (by omega))]
      have hd : (m + 1) % 10 < 10 := Nat.mod_lt _ (by omega)
      have hval : ∀ d < 10, (hexDigit d).toNat - 48 = d := by decide
      rw [hval _ hd]
      omega

theorem decVal_natDec (n : Nat) : decVal (natDec n) = n := by
  rw [natDec]
  by_cases h : n = 0
  · subst h; decide
  · rw [if_neg h]; exact decVal_natDecAux n

/-- Decimal formatting is injective. -/
theorem natDec_inj (n m : Nat) (h : natDec n = natDec m) : n = m := by
  rw [← decVal_natDec n, ← decVal_natDec m, h]

/-- Splitting a string at its first underscore is unambiguous when the two
prefixes are underscore-free. -/
theorem underscore_split : ∀ (p q x y : List Char), '_' ∉ p → '_' ∉ q →
    p ++ '_' :: x = q ++ '_' :: y → p = q ∧ x = y := by
  intro p
  induction p with
  | nil =>
    intro q x y _ hq h
    cases q with
    | nil => simpa using h
    | cons d q' =>
      rw [List.nil_append, List.cons_append, List.cons.injEq] at h
      exact absurd (h.1 ▸ List.mem_cons_self d q') hq
  | cons c p' ih =>
    intro q x y hp hq h
    cases q with
    | nil =>
      rw [List.cons_append, List.nil_append, List.cons.injEq] at h
      exact absurd (h.1 ▸ List.mem_cons_self c p') hp
    | cons d q' =>
      rw [List.cons_append, List.cons_append, List.cons.injEq] at h
      obtain ⟨h1, h2⟩ := h
      have hrec := ih q' x y (fun hm => hp (List.mem_cons_of_mem c hm))
        (fun hm => hq (List.mem_cons_of_mem d hm)) h2
      exact ⟨by rw [h1, hrec.1], hrec.2⟩

/-- Island ids determine the per-page counter. -/
theorem islandId_inj_counter (pid : List Char) (n m : Nat)
    (h : islandId pid n = islandId pid m) : n = m := by
  rw [islandId, islandId] at h
  have h2 := List.append_cancel_left h
  rw [List.cons.injEq] at h2
  exact natDec_inj n m h2.2

/-- Island ids of pages with distinct (underscore-free) ids differ. -/
theorem islandId_inj_page (pid pid' : List Char) (n m : Nat)
    (h1 : '_' ∉ pid) (h2 : '_' ∉ pid') (hne : pid ≠ pid') :
    islandId pid n ≠ islandId pid' m := by
  intro h
  rw [islandId, islandId] at h
  exact hne (underscore_split pid pid' (natDec n) (natDec m) h1 h2 h).1

/-- The ids produced by a sequence of `addIsland` calls: the page keeps its
id, and the new islands get consecutive counters starting at the current
island count. -/
theorem addIslands_ids : ∀ (es : List (List Char)) (p : BPage),
    (addIslands p es).islands.map Island.Id
      = p.islands.map Island.Id
        ++ (List.range es.length).map fun k =>
            islandId p.id (p.islands.length + k) := by
  intro es
  induction es with
  | nil => intro p; simp [addIslands]
  | cons e es ih =>
    intro p
    rw [addIslands, ih]
    simp only [addIsland, List.map_append, List.length_append,
      List.length_cons, List.length_nil, List.map_cons, List.map_nil,
      List.length_range, List.range_succ_eq_map, List.map_map]
    rw [List.append_assoc]
    congr 1
    simp only [List.cons_append, List.nil_append, Nat.add_zero]
    congr 1
    apply List.map_congr_left
    intro k _
    simp only [Function.comp_apply]
    congr 1
    omega

/-- C7, counterexample to global uniqueness: `"s.md"` and `"km.md"` are
distinct relative paths whose `shortHash` page ids collide (`"4c95"`), so
the first island added to each page gets the identical id `"4c95_0"`. -/
theorem islandIds_collide_across_pages :
    chars "s.md" ≠ chars "km.md" ∧
    shortHash (chars "s.md") = some (chars "4c95") ∧
    shortHash (chars "km.md") = some (chars "4c95") ∧
    ((addPage (chars "s.md")).map fun p =>
        (addIsland p (chars "./Counter.tsx")).2.Id) = some (chars "4c95_0") ∧
    ((addPage (chars "km.md")).map fun p =>
        (addIsland p (chars "./Timer.tsx")).2.Id) = some (chars "4c95_0") := by
  refine ⟨by decide, by decide, by decide, by decide, by decide⟩

/-- C7, amended: every island id is the owning page's id joined with a
per-page counter that increases by one per added island; ids are unique
within a page and across pages whose page ids differ; global uniqueness
holds only up to `shortHash` collisions between page paths (see the
counterexample). -/
theorem addIsland_ids_spec :
    (∀ (p : BPage) (e : List Char),
      (addIsland p e).2.Id = islandId p.id p.islands.length ∧
      (addIsland p e).1.islands = p.islands ++ [(addIsland p e).2] ∧
      (addIsland p e).1.id = p.id) ∧
    (∀ (pid c : List Char) (es : List (List Char)),
      (addIslands ⟨pid, c, []⟩ es).islands.map Island.Id
        = (List.range es.length).map fun k => islandId pid k) ∧
    (∀ (pid : List Char) (n : Nat),
      ((List.range n).map fun k => islandId pid k).Nodup) ∧
    (∀ (pid pid' : List Char) (n m : Nat), '_' ∉ pid → '_' ∉ pid' →
      pid ≠ pid' → islandId pid n ≠ islandId pid' m) := by
  refine ⟨?_, ?_, ?_, islandId_inj_page⟩
  · intro p e
    exact ⟨rfl, rfl, rfl⟩
  · intro pid c es
    rw [addIslands_ids]
    simp
  · intro pid n
    refine List.Nodup.map ?_ (List.nodup_range n)
    intro a b hab
    exact islandId_inj_counter pid a b hab

/-- C7, witness: concrete instantiation of the amended id facts. -/
theorem addIsland_ids_spec_witness :
    ((addIslands ⟨chars "4c95", [], []⟩
        [chars "./A.tsx", chars "./B.tsx"]).islands.map Island.Id
      = [chars "4c95_0", chars "4c95_1"]) ∧
    islandId (chars "4c95") 0 ≠ islandId (chars "ab12") 0 := by
  constructor
  · rw [addIsland_ids_spec.2.1 (chars "4c95") [] [chars "./A.tsx", chars "./B.tsx"]]
    decide
  · exact addIsland_ids_spec.2.2.2 _ _ 0 0 (by decide) (by decide) (by decide)

/-! ## C6: the module cache never refetches a cached URL -/

theorem lookup_cons_self {β : Type} (k : List Char) (b : β)
    (es : List (List Char × β)) : List.lookup k ((k, b) :: es) = some b := by
  simp [List.lookup]

theorem lookup_cons_ne {β : Type} (a k : List Char) (b : β)
    (es : List (List Char × β)) (h : a ≠ k) :
    List.lookup a ((k, b) :: es) = List.lookup a es := by
  have hb : (a == k) = false := beq_eq_false_iff_ne.mpr h
  simp [List.lookup, hb]

theorem lookup_map_overwrite_self {β : Type} (k : List Char) (v : β) :
    ∀ t : List (List Char × β), (t.any fun kv => kv.1 = k) = true →
      List.lookup k (t.map fun kv => if kv.1 = k then (k, v) else kv)
        = some v := by
  intro t
  induction t with
  | nil => intro h; simp at h
  | cons kv t ih =>
    intro h
    obtain ⟨a, b⟩ := kv
    simp only [List.map_cons]
    by_cases hak : (a, b).1 = k
    · rw [if_pos hak]
      exact lookup_cons_self k v _
    · rw [if_neg hak]
      simp only at hak
      rw [lookup_cons_ne k a b _ fun he => hak he.symm]
      apply ih
      simp only [List.any_cons, decide_eq_true_eq, hak, false_or] at h
      exact h

theorem lookup_append_self {β : Type} (k : List Char) (v : β) :
    ∀ t : List (List Char × β), (t.any fun kv => kv.1 = k) = false →
      List.lookup k (t ++ [(k, v)]) = some v := by
  intro t
  induction t with
  | nil => intro _; exact lookup_cons_self k v []
  | cons kv t ih =>
    intro h
    obtain ⟨a, b⟩ := kv
    simp only [List.any_cons, Bool.or_eq_false_iff, decide_eq_false_iff_not] at h
    rw [List.cons_append, lookup_cons_ne k a b _ fun he => h.1 he.symm]
    apply ih
    simp [h.2]

theorem lookup_map_overwrite_ne {β : Type} (k k' : List Char) (v : β)
    (h : k' ≠ k) :
    ∀ t : List (List Char × β),
      List.lookup k' (t.map fun kv => if kv.1 = k then (k, v) else kv)
        = List.lookup k' t := by
  intro t
  induction t with
  | nil => rfl
  | cons kv t ih =>
    obtain ⟨a, b⟩ := kv
    simp only [List.map_cons]
    by_cases hak : (a, b).1 = k
    · rw [if_pos hak]
      simp only at hak
      subst hak
      rw [lookup_cons_ne k' a v _ h, lookup_cons_ne k' a b _ h]
      exact ih
    · rw [if_neg hak]
      by_cases hk'a : k' = a
      · subst hk'a
        rw [lookup_cons_self, lookup_cons_self]
      · rw [lookup_cons_ne k' a b _ hk'a, lookup_cons_ne k' a b _ hk'a]
        exact ih

theorem lookup_append_ne {β : Type} (k k' : List Char) (v : β)
    (h : k' ≠ k) :
    ∀ t : List (List Char × β),
      List.lookup k' (t ++ [(k, v)]) = List.lookup k' t := by
  intro t
  induction t with
  | nil => simp only [List.nil_append]; exact lookup_cons_ne k' k v [] h
  | cons kv t ih =>
    obtain ⟨a, b⟩ := kv
    by_cases hk'a : k' = a
    · subst hk'a
      rw [List.cons_append, lookup_cons_self, lookup_cons_self]
    · rw [List.cons_append, lookup_cons_ne k' a b _ hk'a,
        lookup_cons_ne k' a b _ hk'a]
      exact ih

theorem lookup_mapSet_self {β : Type} (m : List (List Char × β))
    (k : List Char) (v : β) : List.lookup k (mapSet m k v) = some v := by
  rw [mapSet]
  by_cases hany : (m.any fun kv => kv.1 = k) = true
  · rw [if_pos hany]
    exact lookup_map_overwrite_self k v m hany
  · rw [if_neg hany]
    exact lookup_append_self k v m (Bool.eq_false_iff.mpr hany)

theorem lookup_mapSet_other {β : Type} (m : List (List Char × β))
    (k k' : List Char) (v : β) (h : k' ≠ k) :
    List.lookup k' (mapSet m k v) = List.lookup k' m := by
  rw [mapSet]
  by_cases hany : (m.any fun kv => kv.1 = k) = true
  · rw [if_pos hany]
    exact lookup_map_overwrite_ne k k' v h m
  · rw [if_neg hany]
    exact lookup_append_ne k k' v h m

/-- A `downloadWithCache` call never removes a cached entry. -/
theorem downloadWithCache_preserves (fetch : List Char → List Char)
    (cache : List (List Char × List Char)) (u href mod : List Char)
    (h : List.lookup href cache = some mod) :
    List.lookup href ((downloadWithCache fetch cache u).2.1) = some mod := by
  rw [downloadWithCache]
  match hu : List.lookup u cache with
  | some m => exact h
  | none =>
    have hne : href ≠ u := fun he => by rw [he, hu] at h; exact Option.noConfusion h
    simp only
    rw [lookup_mapSet_other cache u href (fetch u) hne]
    exact h

/-- C6: once a URL is in the module cache — primed from disk at start or by
a completed earlier fetch — `downloadWithCache` returns the cached content
with no network fetch, the cache is unchanged, and every later call of the
same process for that URL also returns it without fetching; moreover any
completed call leaves its URL cached. -/
theorem downloadWithCache_cache_hit (fetch : List Char → List Char)
    (cache : List (List Char × List Char)) (href mod : List Char)
    (h : List.lookup href cache = some mod) :
    downloadWithCache fetch cache href = (mod, cache, false) ∧
    (∀ (urls : List (List Char)) (k : Nat), urls.get? k = some href →
      (runDownloads fetch cache urls).1.get? k = some (mod, false)) ∧
    (∀ (cache' : List (List Char × List Char)) (href' : List Char),
      List.lookup href'
          ((downloadWithCache fetch cache' href').2.1)
        = some (downloadWithCache fetch cache' href').1) := by
  refine ⟨by rw [downloadWithCache, h], ?_, ?_⟩
  · intro urls
    induction urls generalizing cache with
    | nil => intro k hk; simp at hk
    | cons u us ih =>
      intro k hk
      match k with
      | 0 =>
        simp only [List.get?] at hk
        obtain rfl : u = href := Option.some.inj hk
        rw [runDownloads]
        simp only [downloadWithCache, h, List.get?]
      | k + 1 =>
        simp only [List.get?] at hk
        rw [runDownloads]
        simp only [List.get?]
        exact ih ((downloadWithCache fetch cache u).2.1)
          (downloadWithCache_preserves fetch cache u href mod h) k hk
  · intro cache' href'
    rw [downloadWithCache]
    match hu : List.lookup href' cache' with
    | some m => exact hu
    | none => exact lookup_mapSet_self cache' href' (fetch href')

/-- C6, witness: a primed two-call trace for the same URL, neither call
fetching. -/
theorem downloadWithCache_cache_hit_witness :
    List.lookup (chars "https://esm.sh/preact")
        [(chars "https://esm.sh/preact", chars "export default 1")]
      = some (chars "export default 1") ∧
    (runDownloads (fun _ => chars "fresh")
        [(chars "https://esm.sh/preact", chars "export default 1")]
        [chars "https://esm.sh/preact", chars "https://esm.sh/preact"]).1.get? 1
      = some (chars "export default 1", false) := by
  refine ⟨by decide, ?_⟩
  exact (downloadWithCache_cache_hit (fun _ => chars "fresh")
    [(chars "https://esm.sh/preact", chars "export default 1")]
    (chars "https://esm.sh/preact") (chars "export default 1")
    (by decide)).2.1
    [chars "https://esm.sh/preact", chars "https://esm.sh/preact"] 1 (by decide)

/-! ## C10: `lessAny` and `sortBy` stability -/

/-- C10: `lessAny` returns `true` exactly when both values are strings with
the first lexically smaller, or both ints with the first smaller; every
other pair yields `false` (the function is total, so the `sortBy` template
function cannot panic on mixed types), and `sortBy` — a stable sort — is
the identity whenever no two compared front-matter values are comparable
(two strings or two ints). -/
theorem lessAny_spec :
    (∀ a b : GoVal, lessAny a b = true ↔
      (∃ s1 s2, a = GoVal.str s1 ∧ b = GoVal.str s2 ∧ listLt s1 s2 = true) ∨
        (∃ i1 i2, a = GoVal.int i1 ∧ b = GoVal.int i2 ∧ i1 < i2)) ∧
    (∀ (key : List Char) (pages : List (List (List Char × GoVal))),
      (pages.Pairwise fun x y =>
        ¬comparable2 (dataGet x key) (dataGet y key)) →
      sortBy key pages = pages) := by
  have hiff : ∀ a b : GoVal, lessAny a b = true ↔
      (∃ s1 s2, a = GoVal.str s1 ∧ b = GoVal.str s2 ∧ listLt s1 s2 = true) ∨
        (∃ i1 i2, a = GoVal.int i1 ∧ b = GoVal.int i2 ∧ i1 < i2) := by
    intro a b
    cases a <;> cases b <;> simp [lessAny]
  refine ⟨hiff, ?_⟩
  intro key pages hall
  apply List.mergeSort_of_sorted
  refine hall.imp ?_
  intro a b hnc
  have hfalse : lessAny (dataGet b key) (dataGet a key) = false := by
    rw [Bool.eq_false_iff]
    intro htrue
    rcases (hiff _ _).1 htrue with ⟨s1, s2, h1, h2, _⟩ | ⟨i1, i2, h1, h2, _⟩
    · exact hnc (Or.inl ⟨s2, s1, h2, h1⟩)
    · exact hnc (Or.inr ⟨i2, i1, h2, h1⟩)
  rw [hfalse]
  rfl

/-- C10, witness: a mixed-type page list is left untouched by `sortBy`. -/
theorem lessAny_spec_witness :
    lessAny (GoVal.int 1) (GoVal.str (chars "b")) = false ∧
    sortBy (chars "date")
        [[(chars "date", GoVal.str (chars "b"))],
          [(chars "date", GoVal.int 1)]]
      = [[(chars "date", GoVal.str (chars "b"))],
          [(chars "date", GoVal.int 1)]] := by
  refine ⟨by decide, ?_⟩
  apply lessAny_spec.2
  refine List.Pairwise.cons ?_ (List.pairwise_singleton _ _)
  intro y hy
  rw [List.mem_singleton] at hy
  subst hy
  have hx : dataGet [(chars "date", GoVal.str (chars "b"))] (chars "date")
      = GoVal.str (chars "b") := rfl
  have hy2 : dataGet [(chars "date", GoVal.int 1)] (chars "date")
      = GoVal.int 1 := rfl
  rw [hx, hy2]
  rintro (⟨s1, s2, h1, h2⟩ | ⟨i1, i2, h1, h2⟩)
  · exact GoVal.noConfusion h2
  · exact GoVal.noConfusion h1

/-! ## C5: `V8Error` binds to the resolved throw site -/

/-- C5: when the source map resolves the throw site, the returned error
binds to the original source location (`path.Join(dir, _file)`, resolved
line and column, non-virtual, contents read from disk later); when
resolution fails it falls back to the raw generated location with the
source treated as virtual.  Stack frames resolve individually: a frame the
source map resolves is rewritten to the original location, one it does not
resolve keeps the generated file (joined under `dir`), line and column. -/
theorem V8Error_resolves_throw_site
    (sm : Int → Int → Option (List Char × Int × Int))
    (join : List Char → List Char → List Char)
    (relCwd : List Char → List Char) (dir source msg : List Char)
    (loc : List Char × Int × Int) (stack : List StackItem) :
    (∀ f l c, sm (loc.2.1 - 1) (loc.2.2 - 1) = some (f, l, c) →
      (V8Error sm join relCwd dir source msg loc stack).file = join dir f ∧
      (V8Error sm join relCwd dir source msg loc stack).line = l ∧
      (V8Error sm join relCwd dir source msg loc stack).column = c ∧
      (V8Error sm join relCwd dir source msg loc stack).virtual = false ∧
      (V8Error sm join relCwd dir source msg loc stack).contents = []) ∧
    (sm (loc.2.1 - 1) (loc.2.2 - 1) = none →
      (V8Error sm join relCwd dir source msg loc stack).file = loc.1 ∧
      (V8Error sm join relCwd dir source msg loc stack).line = loc.2.1 ∧
      (V8Error sm join relCwd dir source msg loc stack).column = loc.2.2 ∧
      (V8Error sm join relCwd dir source msg loc stack).virtual = true ∧
      (V8Error sm join relCwd dir source msg loc stack).contents = source) ∧
    ((V8Error sm join relCwd dir source msg loc stack).details
      = (stack.map fun item =>
          match item with
          | StackItem.raw t => t
          | StackItem.frame fr => renderFrame sm join relCwd dir fr).flatten) ∧
    (∀ (fr : V8Frame) f l c, sm (fr.line - 1) (fr.column - 1) = some (f, l, c) →
      renderFrame sm join relCwd dir fr =
        if fr.fn.isEmpty then
          chars "at " ++ relCwd (join dir f) ++ ':' :: intDec l
            ++ ':' :: intDec c
        else
          chars "at " ++ fr.fn ++ chars " (" ++ relCwd (join dir f)
            ++ ':' :: intDec l ++ ':' :: intDec c ++ [')']) ∧
    (∀ fr : V8Frame, sm (fr.line - 1) (fr.column - 1) = none →
      renderFrame sm join relCwd dir fr =
        if fr.fn.isEmpty then
          chars "at " ++ join dir fr.file ++ ':' :: intDec fr.line
            ++ ':' :: intDec fr.column
        else
          chars "at " ++ fr.fn ++ chars " (" ++ join dir fr.file
            ++ ':' :: intDec fr.line ++ ':' :: intDec fr.column ++ [')']) := by
  refine ⟨?_, ?_, ?_, ?_, ?_⟩
  · intro f l c h
    simp [V8Error, h]
  · intro h
    simp [V8Error, h]
  · cases hsm : sm (loc.2.1 - 1) (loc.2.2 - 1) with
    | none => simp only [V8Error, hsm]
    | some x =>
      obtain ⟨f, l, c⟩ := x
      simp only [V8Error, hsm]
  · intro fr f l c h
    simp only [renderFrame, h]
  · intro fr h
    simp only [renderFrame, h]

/-- C5, witness: a concrete source map resolving the throw site and
failing on a stack frame. -/
theorem V8Error_resolves_throw_site_witness :
    (V8Error
        (fun l c => if l = 9 ∧ c = 4 then
          some (chars "Counter.tsx", (3 : Int), (7 : Int)) else none)
        (fun d f => d ++ '/' :: f) id (chars "/a") (chars "src")
        (chars "boom") (chars "server-entry.js", 10, 5) []).file
      = chars "/a/Counter.tsx" ∧
    (V8Error
        (fun l c => if l = 9 ∧ c = 4 then
          some (chars "Counter.tsx", (3 : Int), (7 : Int)) else none)
        (fun d f => d ++ '/' :: f) id (chars "/a") (chars "src")
        (chars "boom") (chars "server-entry.js", 10, 5) []).virtual = false ∧
    renderFrame
        (fun l c => if l = 9 ∧ c = 4 then
          some (chars "Counter.tsx", (3 : Int), (7 : Int)) else none)
        (fun d f => d ++ '/' :: f) id (chars "/a")
        { fn := chars "run", file := chars "gen.js", line := 20, column := 2 }
      = chars "at run (/a/gen.js:20:2)" := by
  have h := V8Error_resolves_throw_site
    (fun l c => if l = 9 ∧ c = 4 then
      some (chars "Counter.tsx", (3 : Int), (7 : Int)) else none)
    (fun d f => d ++ '/' :: f) id (chars "/a") (chars "src")
    (chars "boom") (chars "server-entry.js", 10, 5) []
  refine ⟨(h.1 (chars "Counter.tsx") 3 7 (by decide)).1.trans (by decide),
    (h.1 (chars "Counter.tsx") 3 7 (by decide)).2.2.2.1, ?_⟩
  have h2 := h.2.2.2.2
    { fn := chars "run", file := chars "gen.js", line := 20, column := 2 }
    (by decide)
  rw [h2]
  decide

/-! ## C4: pages without client islands get no bundle and no injected tags -/

theorem lookup_none_not_mem_keys {β : Type} (k : List Char) :
    ∀ m : List (List Char × β), List.lookup k m = none →
      k ∉ m.map fun kv => kv.1 := by
  intro m
  induction m with
  | nil => intro _ h; simp at h
  | cons kv t ih =>
    obtain ⟨a, b⟩ := kv
    intro h hmem
    by_cases hka : k = a
    · subst hka
      rw [lookup_cons_self] at h
      exact Option.noConfusion h
    · rw [lookup_cons_ne k a b t hka] at h
      rw [List.map_cons, List.mem_cons] at hmem
      rcases hmem with h1 | h1
      · exact hka h1
      · exact ih h h1

theorem lookup_map_mk_none (k : List Char)
    (m : List (List Char × List Island)) (h : List.lookup k m = none) :
    List.lookup k (m.map fun kv => (kv.1, BundleResult.mk [] [])) = none := by
  induction m with
  | nil => rfl
  | cons kv t ih =>
    obtain ⟨a, b⟩ := kv
    by_cases hka : k = a
    · subst hka
      rw [lookup_cons_self] at h
      exact Option.noConfusion h
    · rw [lookup_cons_ne k a b t hka] at h
      rw [List.map_cons]
      rw [lookup_cons_ne k a _ _ hka]
      exact ih h

/-- The `islandsByPage` fold never creates a key whose pages all lack
client islands. -/
theorem islandsByPage_lookup_none_aux (k : List Char) :
    ∀ (pages : List BPage) (m : List (List Char × List Island)),
      List.lookup k m = none →
      (∀ p ∈ pages, p.id = k → clientIslands p = []) →
      List.lookup k
          (pages.foldl
            (fun m p =>
              if (clientIslands p).length > 0 then mapSet m p.id (clientIslands p)
              else m)
            m)
        = none := by
  intro pages
  induction pages with
  | nil => intro m hm _; exact hm
  | cons p t ih =>
    intro m hm hall
    rw [List.foldl_cons]
    by_cases hci : (clientIslands p).length > 0
    · rw [if_pos hci]
      have hne : k ≠ p.id := by
        intro he
        have := hall p (List.mem_cons_self p t) he.symm
        rw [this] at hci
        simp at hci
      refine ih (mapSet m p.id (clientIslands p)) ?_ ?_
      · rw [lookup_mapSet_other m p.id k (clientIslands p) hne]
        exact hm
      · intro q hq hqk
        exact hall q (List.mem_cons_of_mem p hq) hqk
    · rw [if_neg hci]
      refine ih m hm fun q hq hqk => hall q (List.mem_cons_of_mem p hq) hqk

/-- `collectOutputs` never adds a key. -/
theorem collectOutputs_lookup_none (outDir k : List Char) :
    ∀ (outputs : List (List Char))
      (bundles : List (List Char × BundleResult)),
      List.lookup k bundles = none →
      ∀ res, collectOutputs outDir bundles outputs = some res →
        List.lookup k res = none := by
  intro outputs
  induction outputs with
  | nil =>
    intro bundles hb res hres
    rw [collectOutputs] at hres
    obtain rfl := Option.some.inj hres
    exact hb
  | cons file rest ih =>
    intro bundles hb res hres
    rw [collectOutputs] at hres
    cases hid : bundleIdOf file with
    | none =>
      simp only [hid] at hres
      exact ih bundles hb res hres
    | some pageId =>
      simp only [hid] at hres
      cases hlk : List.lookup pageId bundles with
      | none =>
        simp only [hlk] at hres
        exact Option.noConfusion hres
      | some b =>
        simp only [hlk] at hres
        have hne : k ≠ pageId := by
          intro he
          rw [he, hlk] at hb
          exact Option.noConfusion hb
        refine ih _ ?_ res hres
        rw [lookup_mapSet_other bundles pageId k _ hne]
        exact hb

/-- C4, amended: in a build whose page ids are pairwise distinct, a page
whose islands all have hydration mode `Static` gets no esbuild entry point
and is returned by `bundleIslands` completely unchanged — zero injected
`<script type="module">` or `<link>` tags. -/
theorem bundleIslands_skips_static_pages
    (pages : List BPage) (outDir : List Char) (outputs : List (List Char))
    (p : BPage) (hnd : (pages.map BPage.id).Nodup) (hp : p ∈ pages)
    (hstatic : ∀ i ∈ p.islands, i.Type' = HydrationType.Static) :
    clientIslands p = [] ∧
    p.id ∉ entryPointIds pages ∧
    ∀ out, bundleIslands outDir outputs pages = some out →
      ∀ k, pages.get? k = some p → out.get? k = some p := by
  have hci : clientIslands p = [] := by
    rw [clientIslands, List.filter_eq_nil]
    intro i hi
    simp [hstatic i hi]
  have hall : ∀ q ∈ pages, q.id = p.id → clientIslands q = [] := by
    intro q hq hqid
    have : q = p := List.inj_on_of_nodup_map hnd hq hp hqid
    rw [this]
    exact hci
  have hkey : List.lookup p.id (islandsByPage pages) = none := by
    rw [islandsByPage]
    exact islandsByPage_lookup_none_aux p.id pages [] rfl hall
  refine ⟨hci, ?_, ?_⟩
  · rw [entryPointIds]
    exact lookup_none_not_mem_keys p.id (islandsByPage pages) hkey
  · intro out hout k hk
    rw [bundleIslands] at hout
    cases hcol : collectOutputs outDir
        ((islandsByPage pages).map fun kv => (kv.1, BundleResult.mk [] []))
        outputs with
    | none =>
      rw [hcol] at hout
      exact Option.noConfusion hout
    | some bundles =>
      rw [hcol] at hout
      obtain rfl := Option.some.inj hout
      have hbnone : List.lookup p.id bundles = none :=
        collectOutputs_lookup_none outDir p.id outputs _
          (lookup_map_mk_none p.id _ hkey) bundles hcol
      rw [List.get?_map, hk]
      rw [Option.map_some']
      rw [injectTags, hbnone]

/-- C4, witness: a two-page build with distinct ids; the all-static page is
untouched while the other page gets its bundle. -/
theorem bundleIslands_skips_static_pages_witness :
    clientIslands
        (⟨chars "aaaa", chars "<head></head><body></body>", []⟩ : BPage)
      = [] ∧
    (chars "aaaa") ∉ entryPointIds
      [⟨chars "aaaa", chars "<head></head><body></body>", []⟩,
        ⟨chars "bbbb", chars "<body></body>",
          [⟨chars "bbbb_0", HydrationType.ClientOnLoad, chars "./C.tsx",
            false⟩]⟩] ∧
    ∀ out,
      bundleIslands (chars "/out") [chars "/out/bundle-bbbb-x1.js"]
          [⟨chars "aaaa", chars "<head></head><body></body>", []⟩,
            ⟨chars "bbbb", chars "<body></body>",
              [⟨chars "bbbb_0", HydrationType.ClientOnLoad, chars "./C.tsx",
                false⟩]⟩]
        = some out →
      out.get? 0
        = some ⟨chars "aaaa", chars "<head></head><body></body>", []⟩ := by
  have h := bundleIslands_skips_static_pages
    [⟨chars "aaaa", chars "<head></head><body></body>", []⟩,
      ⟨chars "bbbb", chars "<body></body>",
        [⟨chars "bbbb_0", HydrationType.ClientOnLoad, chars "./C.tsx",
          false⟩]⟩]
    (chars "/out") [chars "/out/bundle-bbbb-x1.js"]
    ⟨chars "aaaa", chars "<head></head><body></body>", []⟩
    (by decide) (by simp) (by decide)
  exact ⟨h.1, h.2.1, fun out hout => h.2.2 out hout 0 rfl⟩

/-- C4, counterexample to the unconditional claim: two pages whose
relative paths `"s.md"` and `"km.md"` both `shortHash` to the page id
`"4c95"`; the first page has zero islands (so zero hydration-requiring
islands) yet, because the second page's client island creates a bundle
under the shared id, the tag-injection loop splices a
`<script type="module">` tag into the first page too. -/
theorem bundleIslands_injects_into_static_page :
    shortHash (chars "s.md") = some (chars "4c95") ∧
    shortHash (chars "km.md") = some (chars "4c95") ∧
    (∀ i ∈ ([] : List Island), i.Type' = HydrationType.Static) ∧
    bundledPageContains (chars "/out") [chars "/out/bundle-4c95-ab12.js"]
        [⟨chars "4c95", chars "<head></head><body></body>", []⟩,
          ⟨chars "4c95", chars "<body></body>",
            [⟨chars "4c95_0", HydrationType.ClientOnLoad, chars "./C.tsx",
              false⟩]⟩]
        0 (chars "<script type=\"module\"") = true := by
  refine ⟨by decide, by decide, by simp, by decide⟩

/-! ## String rewriting over segmented renderings (shared by C3 and C8)

The terminal/HTML renderings (C8) and the island splice-back (C3) both
rewrite strings whose occurrences of the patterns of interest are exactly
the `code` segments of a well-formed segment list: every pattern starts
with a distinguished character `hc` that text segments avoid, contains it
nowhere else, and no pattern is a proper prefix of another.  Under these
conditions `strings.ReplaceAll` and `strings.Replace(n=1)` act
segment-wise. -/

theorem flattenSegs_cons (s : Seg) (segs : List Seg) :
    flattenSegs (s :: segs) = s.content ++ flattenSegs segs := by
  rw [flattenSegs, flattenSegs, List.map_cons, List.flatten_cons]

theorem replaceAllCore_nil (pat rep : List Char) :
    ∀ f, replaceAllCore pat rep f [] = [] := by
  intro f
  cases f <;> rfl

theorem replaceAllCore_fuel (pat rep : List Char) :
    ∀ n l f1 f2, l.length ≤ n → l.length ≤ f1 → l.length ≤ f2 →
      replaceAllCore pat rep f1 l = replaceAllCore pat rep f2 l := by
  intro n
  induction n with
  | zero =>
    intro l f1 f2 h0 _ _
    have hl : l = [] := List.length_eq_zero.mp (Nat.le_zero.mp h0)
    subst hl
    rw [replaceAllCore_nil, replaceAllCore_nil]
  | succ n ih =>
    intro l f1 f2 h0 h1 h2
    cases l with
    | nil => rw [replaceAllCore_nil, replaceAllCore_nil]
    | cons c t =>
      rw [List.length_cons] at h0 h1 h2
      cases f1 with
      | zero => omega
      | succ a =>
        cases f2 with
        | zero => omega
        | succ b =>
          simp only [replaceAllCore]
          by_cases hp : pat.isPrefixOf (c :: t) = true
          · rw [if_pos hp, if_pos hp]
            congr 1
            refine ih (t.drop (pat.length - 1)) a b ?_ ?_ ?_ <;>
              · rw [List.length_drop]; omega
          · rw [if_neg hp, if_neg hp]
            congr 1
            exact ih t a b (by omega) (by omega) (by omega)

theorem replaceAll_cons_neg (p : Char) (ps rep : List Char) (c : Char)
    (t : List Char) (h : (p :: ps).isPrefixOf (c :: t) = false) :
    replaceAll (c :: t) (p :: ps) rep = c :: replaceAll t (p :: ps) rep := by
  show replaceAllCore (p :: ps) rep (c :: t).length (c :: t)
    = c :: replaceAllCore (p :: ps) rep t.length t
  rw [List.length_cons]
  simp only [replaceAllCore, h, Bool.false_eq_true, if_false]

theorem replaceAll_append_pat (p : Char) (ps rep z : List Char) :
    replaceAll ((p :: ps) ++ z) (p :: ps) rep
      = rep ++ replaceAll z (p :: ps) rep := by
  show replaceAllCore (p :: ps) rep ((p :: ps) ++ z).length ((p :: ps) ++ z)
    = rep ++ replaceAllCore (p :: ps) rep z.length z
  have hpre : (p :: ps).isPrefixOf (p :: (ps ++ z)) = true :=
    List.isPrefixOf_iff_prefix.mpr (by rw [← List.cons_append]; exact List.prefix_append _ _)
  rw [List.cons_append, List.length_cons]
  simp only [replaceAllCore, hpre, if_true]
  congr 1
  have hdrop : (ps ++ z).drop ((p :: ps).length - 1) = z := by
    rw [List.length_cons]
    simp only [Nat.add_sub_cancel]
    exact List.drop_left ps z
  rw [hdrop]
  exact replaceAllCore_fuel (p :: ps) rep (ps ++ z).length z
    ((ps ++ z).length) z.length (by simp) (by simp) le_rfl

theorem replaceAll_txt_pass (hc : Char) (ptail rep : List Char) :
    ∀ (t z : List Char), hc ∉ t →
      replaceAll (t ++ z) (hc :: ptail) rep
        = t ++ replaceAll z (hc :: ptail) rep := by
  intro t
  induction t with
  | nil => intro z _; rw [List.nil_append, List.nil_append]
  | cons c t' ih =>
    intro z hmem
    have hcne : ¬(hc = c) := fun he => hmem (he ▸ List.mem_cons_self c t')
    have hpre : (hc :: ptail).isPrefixOf (c :: (t' ++ z)) = false := by
      rw [Bool.eq_false_iff]
      intro htrue
      exact hcne (List.cons_prefix_cons.mp
        (List.isPrefixOf_iff_prefix.mp htrue)).1
    rw [List.cons_append, replaceAll_cons_neg _ _ _ _ _ hpre,
      ih z fun hm => hmem (List.mem_cons_of_mem c hm), List.cons_append]

theorem pat_no_prefix (hc : Char) (pats : List (List Char))
    (hP : PatsOK hc pats) (p q : List Char) (hp : p ∈ pats) (hq : q ∈ pats)
    (hne : p ≠ q) (z : List Char) : p.isPrefixOf (q ++ z) = false := by
  rw [Bool.eq_false_iff]
  intro htrue
  have h1 : p <+: q ++ z := List.isPrefixOf_iff_prefix.mp htrue
  have h2 : q <+: q ++ z := List.prefix_append q z
  rcases Nat.le_total p.length q.length with hle | hle
  · exact hne (hP.2 p hp q hq (List.prefix_of_prefix_length_le h1 h2 hle))
  · exact hne (hP.2 q hq p hp (List.prefix_of_prefix_length_le h2 h1 hle)).symm

theorem pats_shape (hc : Char) (pats : List (List Char)) (hP : PatsOK hc pats)
    (p : List Char) (hp : p ∈ pats) : ∃ ptail, p = hc :: ptail ∧ hc ∉ ptail := by
  obtain ⟨hne, hhead, htail⟩ := hP.1 p hp
  cases p with
  | nil => exact absurd rfl hne
  | cons a t =>
    rw [List.head?_cons, Option.some.injEq] at hhead
    exact ⟨t, by rw [hhead], htail⟩

/-- `strings.ReplaceAll` of one pattern acts segment-wise on a well-formed
segment list: exactly the `code` segments equal to the pattern become the
replacement text. -/
theorem replaceAll_flattenSegs (hc : Char) (pats : List (List Char))
    (hP : PatsOK hc pats) (p : List Char) (hp : p ∈ pats) (rep : List Char) :
    ∀ segs, SegWF hc pats segs →
      replaceAll (flattenSegs segs) p rep
        = flattenSegs
            (segs.map fun s => if s = Seg.code p then Seg.txt rep else s) := by
  obtain ⟨ptail, hpshape, hpt⟩ := pats_shape hc pats hP p hp
  subst hpshape
  intro segs
  induction segs with
  | nil => intro _; rfl
  | cons s rest ih =>
    intro hwf
    have hs := hwf s (List.mem_cons_self s rest)
    have hrest : SegWF hc pats rest := fun x hx => hwf x (List.mem_cons_of_mem s hx)
    cases s with
    | txt t =>
      rw [flattenSegs_cons]
      simp only [Seg.content]
      rw [replaceAll_txt_pass hc ptail rep t (flattenSegs rest) hs, ih hrest,
        List.map_cons]
      have hne : (if Seg.txt t = Seg.code (hc :: ptail) then Seg.txt rep
          else Seg.txt t) = Seg.txt t := by simp
      rw [hne, flattenSegs_cons]
      simp only [Seg.content]
    | code q =>
      have hq : q ∈ pats := hs
      by_cases hqp : q = hc :: ptail
      · subst hqp
        rw [flattenSegs_cons]
        simp only [Seg.content]
        rw [replaceAll_append_pat hc ptail rep (flattenSegs rest), ih hrest,
          List.map_cons]
        have heq : (if Seg.code (hc :: ptail) = Seg.code (hc :: ptail) then
            Seg.txt rep else Seg.code (hc :: ptail)) = Seg.txt rep := by simp
        rw [heq, flattenSegs_cons]
        simp only [Seg.content]
      · obtain ⟨qtail, hqshape, hqt⟩ := pats_shape hc pats hP q hq
        subst hqshape
        rw [flattenSegs_cons]
        simp only [Seg.content]
        have hpre := pat_no_prefix hc pats hP (hc :: ptail) (hc :: qtail)
          hp hq (fun he => hqp he.symm) (flattenSegs rest)
        rw [List.cons_append,
          replaceAll_cons_neg hc ptail rep hc (qtail ++ flattenSegs rest)
            (by simpa using hpre),
          replaceAll_txt_pass hc ptail rep qtail (flattenSegs rest) hqt,
          ih hrest, List.map_cons]
        have hne2 : (if Seg.code (hc :: qtail) = Seg.code (hc :: ptail) then
            Seg.txt rep else Seg.code (hc :: qtail)) = Seg.code (hc :: qtail) := by
          simp [hqp]
        rw [hne2, flattenSegs_cons]
        simp only [Seg.content, List.cons_append]

theorem replaceFirst_cons_neg (p : Char) (ps rep : List Char) (c : Char)
    (t : List Char) (h : (p :: ps).isPrefixOf (c :: t) = false) :
    replaceFirst (c :: t) (p :: ps) rep = c :: replaceFirst t (p :: ps) rep := by
  rw [replaceFirst, replaceFirst]
  simp only [List.isEmpty_cons, if_false, Bool.false_eq_true]
  rw [replaceFirstAux]
  simp only [h, Bool.false_eq_true, if_false]

theorem replaceFirst_append_pat (p : Char) (ps rep z : List Char) :
    replaceFirst ((p :: ps) ++ z) (p :: ps) rep = rep ++ z := by
  rw [replaceFirst]
  simp only [List.isEmpty_cons, if_false, Bool.false_eq_true]
  rw [List.cons_append, replaceFirstAux]
  have hpre : (p :: ps).isPrefixOf (p :: (ps ++ z)) = true :=
    List.isPrefixOf_iff_prefix.mpr
      (by rw [← List.cons_append]; exact List.prefix_append _ _)
  simp only [hpre, if_true]
  congr 1
  rw [List.length_cons, List.drop_succ_cons]
  exact List.drop_left ps z

theorem replaceFirst_txt_pass (hc : Char) (ptail rep : List Char) :
    ∀ (t z : List Char), hc ∉ t →
      replaceFirst (t ++ z) (hc :: ptail) rep
        = t ++ replaceFirst z (hc :: ptail) rep := by
  intro t
  induction t with
  | nil => intro z _; rw [List.nil_append, List.nil_append]
  | cons c t' ih =>
    intro z hmem
    have hcne : ¬(hc = c) := fun he => hmem (he ▸ List.mem_cons_self c t')
    have hpre : (hc :: ptail).isPrefixOf (c :: (t' ++ z)) = false := by
      rw [Bool.eq_false_iff]
      intro htrue
      exact hcne (List.cons_prefix_cons.mp
        (List.isPrefixOf_iff_prefix.mp htrue)).1
    rw [List.cons_append, replaceFirst_cons_neg _ _ _ _ _ hpre,
      ih z fun hm => hmem (List.mem_cons_of_mem c hm), List.cons_append]

/-- `strings.Replace(s, pat, rep, 1)` acts segment-wise on a well-formed
segment list: exactly the first `code` segment equal to the pattern
becomes the replacement text. -/
theorem replaceFirst_flattenSegs (hc : Char) (pats : List (List Char))
    (hP : PatsOK hc pats) (p : List Char) (hp : p ∈ pats) (rep : List Char) :
    ∀ segs, SegWF hc pats segs →
      replaceFirst (flattenSegs segs) p rep
        = flattenSegs (substFirstSeg p rep segs) := by
  obtain ⟨ptail, hpshape, hpt⟩ := pats_shape hc pats hP p hp
  subst hpshape
  intro segs
  induction segs with
  | nil => intro _; rfl
  | cons s rest ih =>
    intro hwf
    have hs := hwf s (List.mem_cons_self s rest)
    have hrest : SegWF hc pats rest := fun x hx => hwf x (List.mem_cons_of_mem s hx)
    cases s with
    | txt t =>
      rw [flattenSegs_cons]
      simp only [Seg.content]
      rw [replaceFirst_txt_pass hc ptail rep t (flattenSegs rest) hs, ih hrest]
      rw [substFirstSeg]
      have hne : ¬(Seg.txt t = Seg.code (hc :: ptail)) := by simp
      rw [if_neg hne, flattenSegs_cons]
      simp only [Seg.content]
    | code q =>
      have hq : q ∈ pats := hs
      by_cases hqp : q = hc :: ptail
      · subst hqp
        rw [flattenSegs_cons]
        simp only [Seg.content]
        rw [replaceFirst_append_pat hc ptail rep (flattenSegs rest)]
        rw [substFirstSeg, if_pos rfl, flattenSegs_cons]
        simp only [Seg.content]
      · obtain ⟨qtail, hqshape, hqt⟩ := pats_shape hc pats hP q hq
        subst hqshape
        rw [flattenSegs_cons]
        simp only [Seg.content]
        have hpre := pat_no_prefix hc pats hP (hc :: ptail) (hc :: qtail)
          hp hq (fun he => hqp he.symm) (flattenSegs rest)
        rw [List.cons_append,
          replaceFirst_cons_neg hc ptail rep hc (qtail ++ flattenSegs rest)
            (by simpa using hpre),
          replaceFirst_txt_pass hc ptail rep qtail (flattenSegs rest) hqt,
          ih hrest, substFirstSeg]
        have hne2 : ¬(Seg.code (hc :: qtail) = Seg.code (hc :: ptail)) := by
          simp [hqp]
        rw [if_neg hne2, flattenSegs_cons]
        simp only [Seg.content, List.cons_append]

/-- `strings.Replace(s, pat, rep, 1)` replaces exactly the leftmost
occurrence of the pattern and leaves everything around it verbatim. -/
theorem replaceFirst_firstOcc (pat rep : List Char) (hpat : pat ≠ []) :
    ∀ (a s b : List Char), firstOccAt s pat a b →
      replaceFirst s pat rep = a ++ rep ++ b := by
  intro a
  induction a with
  | nil =>
    intro s b hfo
    obtain ⟨hs, _⟩ := hfo
    rw [List.nil_append] at hs
    subst hs
    cases pat with
    | nil => exact absurd rfl hpat
    | cons p ps => rw [replaceFirst_append_pat, List.nil_append]
  | cons c a' ih =>
    intro s b hfo
    obtain ⟨hs, hmin⟩ := hfo
    subst hs
    cases pat with
    | nil => exact absurd rfl hpat
    | cons p ps =>
      have hpre : (p :: ps).isPrefixOf (c :: (a' ++ ((p :: ps) ++ b))) = false := by
        rw [Bool.eq_false_iff]
        intro htrue
        obtain ⟨u, hu⟩ := List.isPrefixOf_iff_prefix.mp htrue
        have hsplit : (c :: a') ++ (p :: ps) ++ b = [] ++ (p :: ps) ++ u := by
          rw [List.nil_append, hu]
          simp [List.cons_append, List.append_assoc]
        have := hmin [] u hsplit
        simp at this
      have hfo' : firstOccAt (a' ++ (p :: ps) ++ b) (p :: ps) a' b := by
        refine ⟨rfl, ?_⟩
        intro a'' b'' h
        have hsplit : (c :: a') ++ (p :: ps) ++ b = (c :: a'') ++ (p :: ps) ++ b'' := by
          simp only [List.cons_append, List.append_assoc] at h ⊢
          rw [h]
        have := hmin (c :: a'') b'' hsplit
        simp only [List.length_cons] at this
        omega
      have hshape : (c :: a') ++ (p :: ps) ++ b = c :: (a' ++ ((p :: ps) ++ b)) := by
        simp [List.cons_append, List.append_assoc]
      rw [hshape, replaceFirst_cons_neg p ps rep c (a' ++ ((p :: ps) ++ b)) hpre]
      have := ih (a' ++ (p :: ps) ++ b) b hfo'
      rw [List.append_assoc] at this
      rw [this]
      simp [List.cons_append, List.append_assoc]

theorem SegWF_map_replace (hc : Char) (pats : List (List Char))
    (p rep : List Char) (hrep : hc ∉ rep) :
    ∀ segs, SegWF hc pats segs →
      SegWF hc pats
        (segs.map fun s => if s = Seg.code p then Seg.txt rep else s) := by
  intro segs hwf s hs
  rw [List.mem_map] at hs
  obtain ⟨x, hx, rfl⟩ := hs
  by_cases hxe : x = Seg.code p
  · rw [if_pos hxe]
    exact hrep
  · rw [if_neg hxe]
    exact hwf x hx

theorem SegWF_substFirst (hc : Char) (pats : List (List Char))
    (p rep : List Char) (hrep : hc ∉ rep) :
    ∀ segs, SegWF hc pats segs → SegWF hc pats (substFirstSeg p rep segs) := by
  intro segs
  induction segs with
  | nil => intro h; exact h
  | cons s rest ih =>
    intro hwf x hx
    rw [substFirstSeg] at hx
    by_cases hse : s = Seg.code p
    · rw [if_pos hse] at hx
      rcases List.mem_cons.mp hx with rfl | hxx
      · exact hrep
      · exact hwf x (List.mem_cons_of_mem s hxx)
    · rw [if_neg hse] at hx
      rcases List.mem_cons.mp hx with rfl | hxx
      · exact hwf x (List.mem_cons_self x rest)
      · exact ih (fun y hy => hwf y (List.mem_cons_of_mem s hy)) x hxx

theorem countCodeSeg_cons (s : Seg) (rest : List Seg) (q : List Char) :
    countCodeSeg (s :: rest) q
      = (if s = Seg.code q then 1 else 0) + countCodeSeg rest q := by
  rw [countCodeSeg, countCodeSeg, List.filter_cons]
  by_cases h : s = Seg.code q <;> simp [h] <;> omega

theorem countCodeSeg_substFirst_le (p q rep : List Char) :
    ∀ segs, countCodeSeg (substFirstSeg p rep segs) q ≤ countCodeSeg segs q := by
  intro segs
  induction segs with
  | nil => exact Nat.le_refl _
  | cons s rest ih =>
    rw [substFirstSeg]
    by_cases hse : s = Seg.code p
    · rw [if_pos hse, countCodeSeg_cons, countCodeSeg_cons]
      by_cases hsq : s = Seg.code q <;> simp [hsq] <;> omega
    · rw [if_neg hse, countCodeSeg_cons, countCodeSeg_cons]
      have h2 := ih
      by_cases hsq : s = Seg.code q <;> simp [hsq] <;> omega

theorem countCodeSeg_substFirst_self (p rep : List Char) :
    ∀ segs, countCodeSeg segs p ≤ 1 →
      countCodeSeg (substFirstSeg p rep segs) p = 0 := by
  intro segs
  induction segs with
  | nil => intro _; rfl
  | cons s rest ih =>
    intro hle
    rw [countCodeSeg_cons] at hle
    rw [substFirstSeg]
    by_cases hse : s = Seg.code p
    · rw [if_pos hse, countCodeSeg_cons]
      have htxt : ¬(Seg.txt rep = Seg.code p) := by simp
      rw [if_neg htxt]
      rw [if_pos hse] at hle
      rw [countCodeSeg] at hle ⊢
      omega
    · rw [if_neg hse, countCodeSeg_cons, if_neg hse]
      rw [if_neg hse] at hle
      have := ih (by omega)
      omega

theorem countCodeSeg_renderSegs_le
    (elements : List (List Char × List Char)) (q : List Char) :
    ∀ (islands : List Island) (segs : List Seg),
      countCodeSeg (renderSegsPage elements islands segs) q
        ≤ countCodeSeg segs q := by
  intro islands
  induction islands with
  | nil => intro segs; exact Nat.le_refl _
  | cons i rest ih =>
    intro segs
    rw [renderSegsPage, List.foldl_cons]
    cases List.lookup i.Id elements with
    | none => exact ih segs
    | some html =>
      calc countCodeSeg
            (renderSegsPage elements rest (substFirstSeg i.Marker html segs)) q
          ≤ countCodeSeg (substFirstSeg i.Marker html segs) q := ih _
        _ ≤ countCodeSeg segs q := countCodeSeg_substFirst_le _ _ _ _

theorem renderSegsPage_cons (elements : List (List Char × List Char))
    (i : Island) (rest : List Island) (segs : List Seg) :
    renderSegsPage elements (i :: rest) segs
      = renderSegsPage elements rest
          (match List.lookup i.Id elements with
            | some html => substFirstSeg i.Marker html segs
            | none => segs) := by
  rw [renderSegsPage, List.foldl_cons, renderSegsPage]

/-- After the render fold, an island that is in the result map and whose
marker occurred at most once has no `code` marker segment left. -/
theorem renderSegs_count_zero (elements : List (List Char × List Char))
    (i : Island) (html : List Char)
    (hlook : List.lookup i.Id elements = some html) :
    ∀ (islands : List Island) (segs : List Seg), i ∈ islands →
      countCodeSeg segs i.Marker ≤ 1 →
      countCodeSeg (renderSegsPage elements islands segs) i.Marker = 0 := by
  intro islands
  induction islands with
  | nil => intro segs hmem _; exact absurd hmem (List.not_mem_nil i)
  | cons j rest ih =>
    intro segs hmem hle
    rw [renderSegsPage_cons]
    by_cases hmk : j.Marker = i.Marker ∧ (List.lookup j.Id elements).isSome
    · obtain ⟨hjm, hsome⟩ := hmk
      obtain ⟨h2, hh2⟩ := Option.isSome_iff_exists.mp hsome
      rw [hh2]
      show countCodeSeg
          (renderSegsPage elements rest (substFirstSeg j.Marker h2 segs))
          i.Marker = 0
      have hzero : countCodeSeg (substFirstSeg j.Marker h2 segs) i.Marker = 0 := by
        rw [hjm]
        exact countCodeSeg_substFirst_self i.Marker h2 segs hle
      have hle2 := countCodeSeg_renderSegs_le elements i.Marker rest
        (substFirstSeg j.Marker h2 segs)
      omega
    · have hi : i ∈ rest := by
        rcases List.mem_cons.mp hmem with rfl | h
        · exact absurd ⟨rfl, by rw [hlook]; rfl⟩ hmk
        · exact h
      cases hl : List.lookup j.Id elements with
      | none => exact ih segs hi hle
      | some h2 =>
        refine ih _ hi ?_
        calc countCodeSeg (substFirstSeg j.Marker h2 segs) i.Marker
            ≤ countCodeSeg segs i.Marker := countCodeSeg_substFirst_le _ _ _ _
          _ ≤ 1 := hle

theorem infix_skip_txt (hc : Char) (p : List Char)
    (hhead : p.head? = some hc) :
    ∀ t z, hc ∉ t → p <:+: t ++ z → p <:+: z := by
  intro t
  induction t with
  | nil => intro z _ h; rw [List.nil_append] at h; exact h
  | cons c t' ih =>
    intro z hmem hinf
    rw [List.cons_append, List.infix_cons_iff] at hinf
    rcases hinf with hpre | hinf
    · exfalso
      cases p with
      | nil => exact Option.noConfusion hhead
      | cons a as =>
        rw [List.head?_cons, Option.some.injEq] at hhead
        have hac := (List.cons_prefix_cons.mp hpre).1
        have hch : hc = c := by rw [← hhead, hac]
        exact hmem (by rw [hch]; exact List.mem_cons_self c t')
    · exact ih z (fun hm => hmem (List.mem_cons_of_mem c hm)) hinf

/-- A well-formed segment list with no `code p` segment does not contain
`p` as a substring at all. -/
theorem not_infix_flattenSegs (hc : Char) (pats : List (List Char))
    (hP : PatsOK hc pats) (p : List Char) (hp : p ∈ pats) :
    ∀ segs, SegWF hc pats segs → (∀ s ∈ segs, s ≠ Seg.code p) →
      ¬ p <:+: flattenSegs segs := by
  obtain ⟨ptail, hpshape, hpt⟩ := pats_shape hc pats hP p hp
  intro segs
  induction segs with
  | nil =>
    intro _ _ h
    simp only [flattenSegs, List.map_nil, List.flatten_nil, List.infix_nil] at h
    rw [h] at hpshape
    exact List.noConfusion hpshape
  | cons s rest ih =>
    intro hwf hnone hinf
    have hrest : SegWF hc pats rest := fun x hx => hwf x (List.mem_cons_of_mem s hx)
    have hnrest : ∀ x ∈ rest, x ≠ Seg.code p := fun x hx =>
      hnone x (List.mem_cons_of_mem s hx)
    rw [flattenSegs_cons] at hinf
    cases s with
    | txt t =>
      have hskip := infix_skip_txt hc p (by rw [hpshape]; rfl) t
        (flattenSegs rest) (hwf (Seg.txt t) (List.mem_cons_self _ _)) hinf
      exact ih hrest hnrest hskip
    | code q =>
      have hq : q ∈ pats := hwf (Seg.code q) (List.mem_cons_self _ _)
      have hqp : q ≠ p := fun he =>
        hnone (Seg.code q) (List.mem_cons_self _ _) (by rw [he])
      obtain ⟨qtail, hqshape, hqt⟩ := pats_shape hc pats hP q hq
      simp only [Seg.content] at hinf
      rw [hqshape, List.cons_append, List.infix_cons_iff] at hinf
      rcases hinf with hpre | hinf2
      · have hfalse := pat_no_prefix hc pats hP p q hp hq
          (fun he => hqp he.symm) (flattenSegs rest)
        rw [Bool.eq_false_iff] at hfalse
        apply hfalse
        apply List.isPrefixOf_iff_prefix.mpr
        rw [hqshape, List.cons_append]
        exact hpre
      · have hskip := infix_skip_txt hc p (by rw [hpshape]; rfl) qtail
          (flattenSegs rest) hqt hinf2
        exact ih hrest hnrest hskip

/-! ## C3: the island markers as a pattern system -/

theorem marker_decomp (i : Island) :
    Island.Marker i = '<' :: (chars "!-- " ++ (i.Id ++ chars " -->")) := by
  rw [Island.Marker, List.append_assoc]
  rfl

theorem lookup_mem {β : Type} (k : List Char) (v : β) :
    ∀ m : List (List Char × β), List.lookup k m = some v → (k, v) ∈ m := by
  intro m
  induction m with
  | nil => intro h; exact Option.noConfusion h
  | cons kv t ih =>
    obtain ⟨a, b⟩ := kv
    intro h
    by_cases hka : k = a
    · subst hka
      rw [lookup_cons_self] at h
      rw [Option.some.injEq] at h
      subst h
      exact List.mem_cons_self _ _
    · rw [lookup_cons_ne k a b t hka] at h
      exact List.mem_cons_of_mem _ (ih h)

/-- Two space-free strings followed by the same `' ' :: r` suffix are
prefix-comparable only when equal. -/
theorem append_space_prefix (r : List Char) :
    ∀ (a b : List Char), ' ' ∉ a → ' ' ∉ b →
      (a ++ ' ' :: r) <+: (b ++ ' ' :: r) → a = b := by
  intro a
  induction a with
  | nil =>
    intro b ha hb hpre
    cases b with
    | nil => rfl
    | cons d b' =>
      rw [List.nil_append, List.cons_append, List.cons_prefix_cons] at hpre
      exact absurd (hpre.1 ▸ List.mem_cons_self d b') hb
  | cons c a' ih =>
    intro b ha hb hpre
    cases b with
    | nil =>
      rw [List.nil_append, List.cons_append, List.cons_prefix_cons] at hpre
      exact absurd (hpre.1.symm ▸ List.mem_cons_self c a') ha
    | cons d b' =>
      rw [List.cons_append, List.cons_append, List.cons_prefix_cons] at hpre
      have hrec := ih b' (fun hm => ha (List.mem_cons_of_mem c hm))
        (fun hm => hb (List.mem_cons_of_mem d hm)) hpre.2
      rw [hpre.1, hrec]

/-- The markers of islands with `<`- and space-free ids form a valid
pattern system over `'<'`. -/
theorem markers_patsOK (islands : List Island)
    (hids : ∀ i ∈ islands, '<' ∉ i.Id ∧ ' ' ∉ i.Id) :
    PatsOK '<' (islands.map Island.Marker) := by
  constructor
  · intro p hp
    rw [List.mem_map] at hp
    obtain ⟨i, hi, rfl⟩ := hp
    obtain ⟨hlt, _⟩ := hids i hi
    rw [marker_decomp]
    refine ⟨List.noConfusion, rfl, ?_⟩
    rw [List.tail_cons]
    intro hmem
    rcases List.mem_append.mp hmem with h | h
    · exact absurd h (by decide)
    · rcases List.mem_append.mp h with h2 | h2
      · exact hlt h2
      · exact absurd h2 (by decide)
  · intro p hp q hq hpre
    rw [List.mem_map] at hp hq
    obtain ⟨i, hi, rfl⟩ := hp
    obtain ⟨j, hj, rfl⟩ := hq
    obtain ⟨hlti, hspi⟩ := hids i hi
    obtain ⟨hltj, hspj⟩ := hids j hj
    rw [Island.Marker, Island.Marker, List.append_assoc, List.append_assoc,
      List.prefix_append_right_inj] at hpre
    have hid : i.Id = j.Id := by
      refine append_space_prefix (chars "-->") i.Id j.Id hspi hspj ?_
      exact hpre
    rw [Island.Marker, Island.Marker, hid]

/-- The inner fold of `renderIslandsPage` tracked at the segment level. -/
theorem renderFold_flattenSegs (elements : List (List Char × List Char))
    (pats : List (List Char)) (hP : PatsOK '<' pats)
    (hel : ∀ kv ∈ elements, '<' ∉ kv.2) :
    ∀ (islands : List Island) (segs : List Seg),
      (∀ i ∈ islands, Island.Marker i ∈ pats) →
      SegWF '<' pats segs →
      islands.foldl
          (fun c i =>
            match List.lookup i.Id elements with
            | some html => replaceFirst c i.Marker html
            | none => c)
          (flattenSegs segs)
        = flattenSegs (renderSegsPage elements islands segs) := by
  intro islands
  induction islands with
  | nil => intro segs _ _; rw [List.foldl_nil, renderSegsPage, List.foldl_nil]
  | cons i rest ih =>
    intro segs hmem hwf
    rw [List.foldl_cons, renderSegsPage_cons]
    cases hl : List.lookup i.Id elements with
    | none =>
      exact ih segs (fun j hj => hmem j (List.mem_cons_of_mem i hj)) hwf
    | some html =>
      have hhtml : '<' ∉ html := hel (i.Id, html) (lookup_mem i.Id html elements hl)
      have hrepl := replaceFirst_flattenSegs '<' pats hP (Island.Marker i)
        (hmem i (List.mem_cons_self i rest)) html segs hwf
      show List.foldl _ (replaceFirst (flattenSegs segs) i.Marker html) rest
        = flattenSegs
            (renderSegsPage elements rest (substFirstSeg i.Marker html segs))
      rw [hrepl]
      exact ih (substFirstSeg i.Marker html segs)
        (fun j hj => hmem j (List.mem_cons_of_mem i hj))
        (SegWF_substFirst '<' pats i.Marker html hhtml segs hwf)

/-- The render fold keeps segment lists well formed. -/
theorem SegWF_renderSegs (elements : List (List Char × List Char))
    (pats : List (List Char)) (hel : ∀ kv ∈ elements, '<' ∉ kv.2) :
    ∀ (islands : List Island) (segs : List Seg), SegWF '<' pats segs →
      SegWF '<' pats (renderSegsPage elements islands segs) := by
  intro islands
  induction islands with
  | nil => intro segs h; exact h
  | cons i rest ih =>
    intro segs hwf
    rw [renderSegsPage_cons]
    cases hl : List.lookup i.Id elements with
    | none => exact ih segs hwf
    | some html =>
      have hhtml : '<' ∉ html := hel (i.Id, html) (lookup_mem i.Id html elements hl)
      exact ih _ (SegWF_substFirst '<' pats i.Marker html hhtml segs hwf)

/-- If the marker `M` has no occurrence inside `Q` extended by all of `M`
but its last character, then the occurrence of `M` at position `Q.length`
of `Q ++ M ++ t` is the leftmost one. -/
theorem firstOcc_of_no_early (Q M t : List Char) (hM : M ≠ [])
    (h : ¬ M <:+: Q ++ M.dropLast) : firstOccAt (Q ++ M ++ t) M Q t := by
  refine ⟨rfl, ?_⟩
  intro a' b' he
  by_contra hcon
  have hlt : a'.length < Q.length := Nat.lt_of_not_le hcon
  have hp1 : a' ++ M <+: Q ++ M ++ t := ⟨b', he.symm⟩
  have hp2 : Q ++ M.dropLast <+: Q ++ M ++ t :=
    ((List.prefix_append_right_inj Q).mpr (List.dropLast_prefix M)).trans
      (List.prefix_append (Q ++ M) t)
  have hlen : (a' ++ M).length ≤ (Q ++ M.dropLast).length := by
    rw [List.length_append, List.length_append, List.length_dropLast]
    have hMp : 0 < M.length := List.length_pos.mpr hM
    omega
  obtain ⟨r, hr⟩ := List.prefix_of_prefix_length_le hp1 hp2 hlen
  exact h ⟨a', r, hr⟩

/-- The `renderIslands` inner fold, run on a string of the form
`P ++ layoutOrig c0 pairs` with `P` already processed, rewrites the layout
slot-wise: it produces `P ++ layoutDone elements c0 pairs`. -/
theorem renderFold_layout (elements : List (List Char × List Char)) :
    ∀ (pairs : List (Island × List Char)) (P c0 : List Char),
      SpliceOK elements (P ++ c0) pairs →
      (pairs.map Prod.fst).foldl
          (fun c i =>
            match List.lookup i.Id elements with
            | some html => replaceFirst c i.Marker html
            | none => c)
          (P ++ layoutOrig c0 pairs)
        = P ++ layoutDone elements c0 pairs := by
  intro pairs
  induction pairs with
  | nil => intro P c0 _; rfl
  | cons pc rest ih =>
    obtain ⟨i, c⟩ := pc
    intro P c0 hok
    obtain ⟨hfirst, hrest⟩ := hok
    rw [List.map_cons, List.foldl_cons]
    have hMne : i.Marker ≠ [] := by rw [marker_decomp]; exact List.noConfusion
    have hshape : P ++ layoutOrig c0 ((i, c) :: rest)
        = (P ++ c0) ++ i.Marker ++ layoutOrig c rest := by
      rw [layoutOrig]
      simp [List.append_assoc]
    cases hl : List.lookup i.Id elements with
    | some html =>
      have hsub : substOf elements i = html := by rw [substOf, hl]
      have hfo : firstOccAt ((P ++ c0) ++ i.Marker ++ layoutOrig c rest)
          i.Marker (P ++ c0) (layoutOrig c rest) :=
        firstOcc_of_no_early (P ++ c0) i.Marker (layoutOrig c rest) hMne
          hfirst
      have hrf : replaceFirst (P ++ layoutOrig c0 ((i, c) :: rest))
          i.Marker html = ((P ++ c0) ++ html) ++ layoutOrig c rest := by
        rw [hshape]
        exact replaceFirst_firstOcc i.Marker html hMne (P ++ c0)
          ((P ++ c0) ++ i.Marker ++ layoutOrig c rest) (layoutOrig c rest)
          hfo
      simp only [hl]
      rw [hrf]
      have hok' : SpliceOK elements (((P ++ c0) ++ html) ++ c) rest := by
        rw [hsub] at hrest
        exact hrest
      rw [ih ((P ++ c0) ++ html) c hok']
      rw [layoutDone, hsub]
      simp [List.append_assoc]
    | none =>
      have hsub : substOf elements i = i.Marker := by rw [substOf, hl]
      simp only [hl]
      have hok' : SpliceOK elements (((P ++ c0) ++ i.Marker) ++ c) rest := by
        rw [hsub] at hrest
        exact hrest
      rw [hshape]
      rw [ih ((P ++ c0) ++ i.Marker) c hok']
      rw [layoutDone, hsub]
      simp [List.append_assoc]

/-- Every island of the layout has a slot in the spliced layout: the
result decomposes around that island's substitution. -/
theorem layoutDone_decomp (elements : List (List Char × List Char)) :
    ∀ (pairs : List (Island × List Char)) (c0 : List Char) (i : Island)
      (c : List Char), (i, c) ∈ pairs →
      ∃ pre post, layoutDone elements c0 pairs
        = pre ++ substOf elements i ++ post := by
  intro pairs
  induction pairs with
  | nil => intro c0 i c h; exact absurd h (List.not_mem_nil _)
  | cons pc rest ih =>
    obtain ⟨j, cj⟩ := pc
    intro c0 i c hmem
    rcases List.mem_cons.mp hmem with heq | hmem2
    · injection heq with h1 h2
      subst h1
      refine ⟨c0, layoutDone elements cj rest, ?_⟩
      rw [layoutDone]
    · obtain ⟨pre, post, hde⟩ := ih cj i c hmem2
      refine ⟨(c0 ++ substOf elements j) ++ pre, post, ?_⟩
      rw [layoutDone, hde]
      simp [List.append_assoc]

/-- An island missing from the static-render result map keeps its marker:
the marker occurs in the spliced layout. -/
theorem marker_of_lookup_none (elements : List (List Char × List Char))
    (pairs : List (Island × List Char)) (c0 : List Char) (i : Island)
    (c : List Char) (hmem : (i, c) ∈ pairs)
    (hl : List.lookup i.Id elements = none) :
    i.Marker <:+: layoutDone elements c0 pairs := by
  obtain ⟨pre, post, hde⟩ := layoutDone_decomp elements pairs c0 i c hmem
  rw [substOf, hl] at hde
  exact ⟨pre, post, hde.symm⟩

/-- C3: splice-back of static renders.  (a) Pages are processed
independently.  (b) For an island whose id is in the static-render result
map, the splice replaces exactly the leftmost occurrence of its placeholder
marker with the rendered HTML, leaving everything around it verbatim.
(c) In general: when the page contents decompose as text chunks
alternating with the page's island markers in island order, each slot
being the leftmost occurrence of its marker at its processing step
(`SpliceOK`), the whole fold rewrites the layout slot-wise — every mapped
island's marker slot holds the rendered HTML verbatim, every unmapped
island's slot keeps its marker — and every island whose marker is absent
from the spliced layout was necessarily mapped, its rendered HTML appears
verbatim where its marker was, and no occurrence of its marker remains in
the page's contents. -/
theorem renderIslands_splice_spec :
    (∀ (elements : List (List Char × List Char)) (pages : List BPage),
      renderIslands elements pages = pages.map (renderIslandsPage elements)) ∧
    (∀ (elements : List (List Char × List Char)) (p : BPage) (i : Island)
        (html a b : List Char),
      p.islands = [i] → List.lookup i.Id elements = some html →
      firstOccAt p.Contents i.Marker a b →
      (renderIslandsPage elements p).Contents = a ++ html ++ b) ∧
    ∀ (elements : List (List Char × List Char)) (p : BPage)
      (pairs : List (Island × List Char)) (c0 : List Char),
      p.islands = pairs.map Prod.fst →
      p.Contents = layoutOrig c0 pairs →
      SpliceOK elements c0 pairs →
      (renderIslandsPage elements p).Contents
          = layoutDone elements c0 pairs ∧
        ∀ i ∈ p.islands, ¬ i.Marker <:+: layoutDone elements c0 pairs →
          ∃ html, List.lookup i.Id elements = some html ∧
            ¬ i.Marker <:+: (renderIslandsPage elements p).Contents ∧
            ∃ pre post,
              (renderIslandsPage elements p).Contents
                = pre ++ html ++ post := by
  refine ⟨fun _ _ => rfl, ?_, ?_⟩
  · intro elements p i html a b hisl hlook hfo
    rw [renderIslandsPage, hisl]
    rw [List.foldl_cons, hlook, List.foldl_nil]
    exact replaceFirst_firstOcc i.Marker html
      (by rw [marker_decomp]; exact List.noConfusion) a p.Contents b hfo
  · intro elements p pairs c0 hisl hcont hok
    have hfold : (renderIslandsPage elements p).Contents
        = List.foldl
            (fun c i =>
              match List.lookup i.Id elements with
              | some html => replaceFirst c i.Marker html
              | none => c)
            p.Contents p.islands := rfl
    have hmain : (renderIslandsPage elements p).Contents
        = layoutDone elements c0 pairs := by
      rw [hfold, hisl, hcont]
      exact renderFold_layout elements pairs [] c0 hok
    refine ⟨hmain, ?_⟩
    intro i hi hfr
    rw [hisl] at hi
    rw [List.mem_map] at hi
    obtain ⟨⟨i', c⟩, hmem, heq⟩ := hi
    cases heq
    cases hl : List.lookup i'.Id elements with
    | none =>
      exact absurd (marker_of_lookup_none elements pairs c0 i' c hmem hl) hfr
    | some html =>
      refine ⟨html, rfl, ?_, ?_⟩
      · rw [hmain]; exact hfr
      · obtain ⟨pre, post, hde⟩ :=
          layoutDone_decomp elements pairs c0 i' c hmem
        rw [substOf, hl] at hde
        exact ⟨pre, post, by rw [hmain, hde]⟩

/-- C3, witness: a two-island page `"A<!-- x1_0 -->B<!-- x1_1 -->C"` whose
islands render to `"hello"` and `"world"`: the fold splices both markers
out slot-wise and no occurrence of the first island's marker remains. -/
theorem renderIslands_splice_spec_witness :
    (renderIslandsPage
          [(chars "x1_0", chars "hello"), (chars "x1_1", chars "world")]
          ⟨chars "x1", chars "A<!-- x1_0 -->B<!-- x1_1 -->C",
            [⟨chars "x1_0", HydrationType.Static, chars "./C.tsx", false⟩,
              ⟨chars "x1_1", HydrationType.ClientOnLoad, chars "./D.tsx",
                false⟩]⟩).Contents
        = layoutDone
            [(chars "x1_0", chars "hello"), (chars "x1_1", chars "world")]
            (chars "A")
            [(⟨chars "x1_0", HydrationType.Static, chars "./C.tsx", false⟩,
                chars "B"),
              (⟨chars "x1_1", HydrationType.ClientOnLoad, chars "./D.tsx", false⟩,
                chars "C")] ∧
      ¬ Island.Marker
          ⟨chars "x1_0", HydrationType.Static, chars "./C.tsx", false⟩ <:+:
        (renderIslandsPage
            [(chars "x1_0", chars "hello"), (chars "x1_1", chars "world")]
            ⟨chars "x1", chars "A<!-- x1_0 -->B<!-- x1_1 -->C",
              [⟨chars "x1_0", HydrationType.Static, chars "./C.tsx", false⟩,
                ⟨chars "x1_1", HydrationType.ClientOnLoad, chars "./D.tsx",
                  false⟩]⟩).Contents := by
  have h := renderIslands_splice_spec.2.2
    [(chars "x1_0", chars "hello"), (chars "x1_1", chars "world")]
    ⟨chars "x1", chars "A<!-- x1_0 -->B<!-- x1_1 -->C",
      [⟨chars "x1_0", HydrationType.Static, chars "./C.tsx", false⟩,
        ⟨chars "x1_1", HydrationType.ClientOnLoad, chars "./D.tsx", false⟩]⟩
    [(⟨chars "x1_0", HydrationType.Static, chars "./C.tsx", false⟩,
        chars "B"),
      (⟨chars "x1_1", HydrationType.ClientOnLoad, chars "./D.tsx", false⟩,
        chars "C")]
    (chars "A") rfl (by decide) (by decide)
  refine ⟨h.1, ?_⟩
  obtain ⟨html, _, hni, _⟩ := h.2
    ⟨chars "x1_0", HydrationType.Static, chars "./C.tsx", false⟩
    (List.mem_cons_self _ _) (by decide)
  exact hni

/-! ## C8: the HTML rendering never diverges from the terminal rendering -/

theorem escape_append (a b : List Char) :
    escape (a ++ b) = escape a ++ escape b := by
  rw [escape, escape, escape, List.flatMap_append]

theorem escape_flattenSegs :
    ∀ segs, (∀ c, Seg.code c ∈ segs → escape c = c) →
      escape (flattenSegs segs) = flattenSegs (segs.map escapeSeg) := by
  intro segs
  induction segs with
  | nil => intro _; rfl
  | cons s rest ih =>
    intro hcodes
    rw [flattenSegs_cons, escape_append, List.map_cons, flattenSegs_cons,
      ih fun c hc => hcodes c (List.mem_cons_of_mem s hc)]
    cases s with
    | txt t => rfl
    | code c =>
      have := hcodes c (List.mem_cons_self _ _)
      simp only [Seg.content, escapeSeg, this]

theorem escChar_no_lt (c : Char) : '<' ∉ escChar c := by
  rw [escChar]
  by_cases h1 : c = '&'
  · rw [if_pos h1]; decide
  · rw [if_neg h1]
    by_cases h2 : c = '\''
    · rw [if_pos h2]; decide
    · rw [if_neg h2]
      by_cases h3 : c = '<'
      · rw [if_pos h3]; decide
      · rw [if_neg h3]
        by_cases h4 : c = '>'
        · rw [if_pos h4]; decide
        · rw [if_neg h4]
          by_cases h5 : c = '"'
          · rw [if_pos h5]; decide
          · rw [if_neg h5]
            intro hm
            rw [List.mem_singleton] at hm
            exact h3 hm.symm

theorem escChar_noEsc (c : Char) (h : c ≠ '\x1b') : '\x1b' ∉ escChar c := by
  rw [escChar]
  by_cases h1 : c = '&'
  · rw [if_pos h1]; decide
  · rw [if_neg h1]
    by_cases h2 : c = '\''
    · rw [if_pos h2]; decide
    · rw [if_neg h2]
      by_cases h3 : c = '<'
      · rw [if_pos h3]; decide
      · rw [if_neg h3]
        by_cases h4 : c = '>'
        · rw [if_pos h4]; decide
        · rw [if_neg h4]
          by_cases h5 : c = '"'
          · rw [if_pos h5]; decide
          · rw [if_neg h5]
            intro hm
            rw [List.mem_singleton] at hm
            exact h (hm.symm)

theorem escape_no_lt (t : List Char) : '<' ∉ escape t := by
  intro hm
  rw [escape, List.mem_flatMap] at hm
  obtain ⟨c, _, hc⟩ := hm
  exact escChar_no_lt c hc

theorem escape_noEsc (t : List Char) (h : noEsc t) : noEsc (escape t) := by
  intro hm
  rw [escape, List.mem_flatMap] at hm
  obtain ⟨c, hct, hc⟩ := hm
  exact escChar_noEsc c (fun he => h (he ▸ hct)) hc

theorem SegWF_escape (segs : List Seg)
    (hwf : SegWF '\x1b' ansiCodes segs) :
    SegWF '\x1b' ansiCodes (segs.map escapeSeg) := by
  intro s hs
  rw [List.mem_map] at hs
  obtain ⟨x, hx, rfl⟩ := hs
  cases x with
  | txt t => exact escape_noEsc t (hwf (Seg.txt t) hx)
  | code c => exact hwf (Seg.code c) hx

/-- Four sequential `ReplaceAll` passes over the four ANSI codes act
segment-wise, turning each code segment into its replacement text. -/
theorem ansi_fourPass (r1 r2 r3 r4 : List Char)
    (h1 : '\x1b' ∉ r1) (h2 : '\x1b' ∉ r2) (h3 : '\x1b' ∉ r3) :
    ∀ segs, SegWF '\x1b' ansiCodes segs →
      replaceAll (replaceAll (replaceAll (replaceAll (flattenSegs segs)
            errorColor r1) lineNumberColor r2) errorFocusColor r3)
          resetColor r4
        = flattenSegs (segs.map fun s =>
            match s with
            | Seg.txt t => Seg.txt t
            | Seg.code c => Seg.txt
                (if c = errorColor then r1
                  else if c = lineNumberColor then r2
                  else if c = errorFocusColor then r3 else r4)) := by
  have hP : PatsOK '\x1b' ansiCodes := by decide
  intro segs hwf
  rw [replaceAll_flattenSegs '\x1b' ansiCodes hP errorColor (by decide) r1
    segs hwf]
  have hwf1 := SegWF_map_replace '\x1b' ansiCodes errorColor r1 h1 segs hwf
  rw [replaceAll_flattenSegs '\x1b' ansiCodes hP lineNumberColor (by decide)
    r2 _ hwf1]
  have hwf2 := SegWF_map_replace '\x1b' ansiCodes lineNumberColor r2 h2 _ hwf1
  rw [replaceAll_flattenSegs '\x1b' ansiCodes hP errorFocusColor (by decide)
    r3 _ hwf2]
  have hwf3 := SegWF_map_replace '\x1b' ansiCodes errorFocusColor r3 h3 _ hwf2
  rw [replaceAll_flattenSegs '\x1b' ansiCodes hP resetColor (by decide)
    r4 _ hwf3]
  rw [List.map_map, List.map_map, List.map_map]
  congr 1
  apply List.map_congr_left
  intro s hs
  have hsOK := hwf s hs
  have dLE : (lineNumberColor = errorColor) = False := eq_false (by decide)
  have dFE : (errorFocusColor = errorColor) = False := eq_false (by decide)
  have dFL : (errorFocusColor = lineNumberColor) = False := eq_false (by decide)
  have dRE : (resetColor = errorColor) = False := eq_false (by decide)
  have dRL : (resetColor = lineNumberColor) = False := eq_false (by decide)
  have dRF : (resetColor = errorFocusColor) = False := eq_false (by decide)
  cases s with
  | txt t => simp
  | code c =>
    have hcm : c ∈ ansiCodes := hsOK
    rw [ansiCodes] at hcm
    simp only [List.mem_cons, List.mem_singleton] at hcm
    rcases hcm with rfl | rfl | rfl | rfl | h
    · simp
    · simp [dLE]
    · simp [dFE, dFL]
    · simp [dRE, dRL, dRF]
    · exact absurd h (List.not_mem_nil _)

theorem replaceColors_flattenSegs (segs : List Seg)
    (hwf : SegWF '\x1b' ansiCodes segs) :
    replaceColors (flattenSegs segs) = flattenSegs (segs.map colorSeg) := by
  rw [replaceColors, ansi_fourPass tagError tagLineNumber tagFocus tagClose
    (by decide) (by decide) (by decide) segs hwf]
  induction segs with
  | nil => rfl
  | cons s rest ih =>
    have hihs := ih (fun x hx => hwf x (List.mem_cons_of_mem s hx))
    rw [List.map_cons, List.map_cons, flattenSegs_cons, flattenSegs_cons,
      hihs]
    cases s with
    | txt t => rfl
    | code c => simp [Seg.content, colorSeg, tagOf]

theorem stripAnsi_flattenSegs (segs : List Seg)
    (hwf : SegWF '\x1b' ansiCodes segs) :
    stripAnsi (flattenSegs segs) = flattenSegs (segs.map stripSeg) := by
  rw [stripAnsi, ansi_fourPass [] [] [] []
    (by decide) (by decide) (by decide) segs hwf]
  induction segs with
  | nil => rfl
  | cons s rest ih =>
    have hihs := ih (fun x hx => hwf x (List.mem_cons_of_mem s hx))
    rw [List.map_cons, List.map_cons, flattenSegs_cons, flattenSegs_cons,
      hihs]
    cases s with
    | txt t => rfl
    | code c => simp [Seg.content, stripSeg]

/-- The four tag-erasing passes of the content extraction act segment-wise
on the tag system. -/
theorem stripTags_flattenSegs :
    ∀ segs, SegWF '<' htmlTags segs →
      stripTags (flattenSegs segs) = flattenSegs (segs.map stripSeg) := by
  have hP : PatsOK '<' htmlTags := by decide
  intro segs hwf
  rw [stripTags]
  rw [replaceAll_flattenSegs '<' htmlTags hP tagError (by decide) [] segs hwf]
  have hwf1 := SegWF_map_replace '<' htmlTags tagError [] (by decide) segs hwf
  rw [replaceAll_flattenSegs '<' htmlTags hP tagLineNumber (by decide) [] _ hwf1]
  have hwf2 := SegWF_map_replace '<' htmlTags tagLineNumber [] (by decide) _ hwf1
  rw [replaceAll_flattenSegs '<' htmlTags hP tagFocus (by decide) [] _ hwf2]
  have hwf3 := SegWF_map_replace '<' htmlTags tagFocus [] (by decide) _ hwf2
  rw [replaceAll_flattenSegs '<' htmlTags hP tagClose (by decide) [] _ hwf3]
  rw [List.map_map, List.map_map, List.map_map]
  congr 1
  apply List.map_congr_left
  intro s hs
  have hsOK := hwf s hs
  have dLE : (tagLineNumber = tagError) = False := eq_false (by decide)
  have dFE : (tagFocus = tagError) = False := eq_false (by decide)
  have dFL : (tagFocus = tagLineNumber) = False := eq_false (by decide)
  have dRE : (tagClose = tagError) = False := eq_false (by decide)
  have dRL : (tagClose = tagLineNumber) = False := eq_false (by decide)
  have dRF : (tagClose = tagFocus) = False := eq_false (by decide)
  cases s with
  | txt t => simp [stripSeg]
  | code c =>
    have hcm : c ∈ htmlTags := hsOK
    rw [htmlTags] at hcm
    simp only [List.mem_cons, List.mem_singleton] at hcm
    rcases hcm with rfl | rfl | rfl | rfl | h
    · simp [stripSeg]
    · simp [stripSeg, dLE]
    · simp [stripSeg, dFE, dFL]
    · simp [stripSeg, dRE, dRL, dRF]
    · exact absurd h (List.not_mem_nil _)

/-- After escaping and color rewriting, the rendering is a well-formed
segment list over the tag system. -/
theorem SegWF_tags (segs : List Seg) (hwf : SegWF '\x1b' ansiCodes segs) :
    SegWF '<' htmlTags ((segs.map escapeSeg).map colorSeg) := by
  intro s hs
  rw [List.map_map, List.mem_map] at hs
  obtain ⟨x, hx, rfl⟩ := hs
  have hxOK := hwf x hx
  cases x with
  | txt t => exact escape_no_lt t
  | code c =>
    have hcm : c ∈ ansiCodes := hxOK
    rw [ansiCodes] at hcm
    simp only [List.mem_cons, List.mem_singleton] at hcm
    rcases hcm with rfl | rfl | rfl | rfl | h
    · exact (by decide : segOK '<' htmlTags (colorSeg (escapeSeg (Seg.code errorColor))))
    · exact (by decide : segOK '<' htmlTags (colorSeg (escapeSeg (Seg.code lineNumberColor))))
    · exact (by decide : segOK '<' htmlTags (colorSeg (escapeSeg (Seg.code errorFocusColor))))
    · exact (by decide : segOK '<' htmlTags (colorSeg (escapeSeg (Seg.code resetColor))))
    · exact absurd h (List.not_mem_nil _)

/-- The whole content chain: erasing the markup from the
escaped-and-rewritten rendering gives exactly the escape of the
ANSI-stripped rendering. -/
theorem content_chain (segs : List Seg)
    (hwf : SegWF '\x1b' ansiCodes segs) :
    stripTags (replaceColors (escape (flattenSegs segs)))
      = escape (stripAnsi (flattenSegs segs)) := by
  have hcodes : ∀ c, Seg.code c ∈ segs → escape c = c := by
    intro c hc
    have := hwf (Seg.code c) hc
    have hcm : c ∈ ansiCodes := this
    rw [ansiCodes] at hcm
    simp only [List.mem_cons, List.mem_singleton] at hcm
    rcases hcm with rfl | rfl | rfl | rfl | h
    · decide
    · decide
    · decide
    · decide
    · exact absurd h (List.not_mem_nil _)
  rw [escape_flattenSegs segs hcodes,
    replaceColors_flattenSegs _ (SegWF_escape segs hwf),
    stripTags_flattenSegs _ (SegWF_tags segs hwf),
    stripAnsi_flattenSegs segs hwf,
    escape_flattenSegs (segs.map stripSeg) ?_]
  · rw [List.map_map, List.map_map, List.map_map]
    congr 1
    apply List.map_congr_left
    intro s _
    cases s with
    | txt t => rfl
    | code c => rfl
  · intro c hc
    rw [List.mem_map] at hc
    obtain ⟨x, _, hx⟩ := hc
    cases x with
    | txt t => exact absurd hx (by simp [stripSeg])
    | code c2 => exact absurd hx (by simp [stripSeg])

theorem noEsc_append (a b : List Char) (ha : noEsc a) (hb : noEsc b) :
    noEsc (a ++ b) := by
  intro hm
  rcases List.mem_append.mp hm with h | h
  · exact ha h
  · exact hb h

theorem noEsc_cons (c : Char) (l : List Char) (hc : c ≠ '\x1b')
    (hl : noEsc l) : noEsc (c :: l) := by
  intro hm
  rcases List.mem_cons.mp hm with he | h
  · exact hc he.symm
  · exact hl h

theorem noEsc_replicate (n : Nat) (c : Char) (h : c ≠ '\x1b') :
    noEsc (List.replicate n c) := by
  intro hm
  rw [List.mem_replicate] at hm
  exact h hm.2.symm

theorem digitsCore10_mem : ∀ f n, ∀ c ∈ digitsCore 10 f n, c ∈ lowercaseHex := by
  intro f
  induction f with
  | zero => intro n c hc; exact absurd hc (List.not_mem_nil c)
  | succ f ih =>
    intro n c hc
    rw [digitsCore] at hc
    by_cases hn : n = 0
    · rw [if_pos hn] at hc
      exact absurd hc (List.not_mem_nil c)
    · rw [if_neg hn] at hc
      rcases List.mem_append.mp hc with h | h
      · exact ih (n / 10) c h
      · rw [List.mem_singleton] at h
        subst h
        have hlt : n % 10 < 16 := by
          have := Nat.mod_lt n (show 0 < 10 by omega)
          omega
        have hall : ∀ d < 16, hexDigit d ∈ lowercaseHex := by decide
        exact hall _ hlt

theorem noEsc_natDec (n : Nat) : noEsc (natDec n) := by
  intro hm
  rw [natDec] at hm
  by_cases hn : n = 0
  · rw [if_pos hn] at hm
    exact absurd hm (by decide)
  · rw [if_neg hn, natDecAux] at hm
    exact absurd (digitsCore10_mem n n '\x1b' hm) (by decide)

theorem noEsc_intDec (n : Int) : noEsc (intDec n) := by
  rw [intDec]
  by_cases h : n < 0
  · rw [if_pos h]
    exact noEsc_cons '-' _ (by decide) (noEsc_natDec _)
  · rw [if_neg h]
    exact noEsc_natDec _

theorem noEsc_fmt3d (n : Int) : noEsc (fmt3d n) := by
  rw [fmt3d]
  exact noEsc_append _ _ (noEsc_replicate _ ' ' (by decide)) (noEsc_intDec n)

theorem splitLines_ne_nil : ∀ x : List Char, splitLines x ≠ [] := by
  intro x
  cases x with
  | nil => exact fun h => List.noConfusion h
  | cons c t =>
    simp only [splitLines]
    by_cases hc : c = '\n'
    · rw [if_pos hc]
      exact List.cons_ne_nil _ _
    · rw [if_neg hc]
      cases hr : splitLines t with
      | nil => exact List.cons_ne_nil _ _
      | cons h1 t1 => exact List.cons_ne_nil _ _

theorem splitLines_mem : ∀ (x l : List Char), l ∈ splitLines x →
    ∀ c ∈ l, c ∈ x := by
  intro x
  induction x with
  | nil =>
    intro l hl c hc
    rcases List.mem_cons.mp hl with rfl | h
    · exact absurd hc (List.not_mem_nil c)
    · exact absurd h (List.not_mem_nil l)
  | cons c0 t ih =>
    intro l hl c hc
    simp only [splitLines] at hl
    by_cases h0 : c0 = '\n'
    · rw [if_pos h0] at hl
      rcases List.mem_cons.mp hl with rfl | hl2
      · exact absurd hc (List.not_mem_nil c)
      · exact List.mem_cons_of_mem c0 (ih l hl2 c hc)
    · rw [if_neg h0] at hl
      cases hr : splitLines t with
      | nil => exact absurd hr (splitLines_ne_nil t)
      | cons h1 t1 =>
        rw [hr] at hl
        rcases List.mem_cons.mp hl with rfl | hl2
        · rcases List.mem_cons.mp hc with rfl | hc2
          · exact List.mem_cons_self c t
          · have hh1 : h1 ∈ splitLines t := by
              rw [hr]; exact List.mem_cons_self _ _
            exact List.mem_cons_of_mem c0 (ih h1 hh1 c hc2)
        · have hlt : l ∈ splitLines t := by
            rw [hr]; exact List.mem_cons_of_mem _ hl2
          exact List.mem_cons_of_mem c0 (ih l hlt c hc)

theorem noEsc_getLine (x : List Char) (i : Nat) (h : noEsc x) :
    noEsc ((splitLines x).getD i []) := by
  intro hm
  rw [List.getD_eq_getElem?_getD] at hm
  cases hg : (splitLines x)[i]? with
  | none => rw [hg] at hm; exact absurd hm (List.not_mem_nil _)
  | some l =>
    rw [hg] at hm
    have hl : l ∈ splitLines x := List.mem_iff_getElem?.mpr ⟨i, hg⟩
    exact h (splitLines_mem x l hl '\x1b' hm)

/-- Every segment the terminal renderer emits is well formed: the code
segments are the four ANSI colors, and (given escape-free inputs) the text
segments are escape-free. -/
theorem errSegs_wf (disk : List Char → Option (List Char))
    (relCwd : List Char → List Char) (e : SourceError)
    (hm : noEsc e.message) (hd : noEsc e.details) (hcnt : noEsc e.contents)
    (hf : noEsc e.file) (hdisk : ∀ d, disk e.file = some d → noEsc d)
    (hrel : noEsc (relCwd e.file)) :
    SegWF '\x1b' ansiCodes (errSegs disk relCwd e) := by
  have hcontents : noEsc
      (if !e.virtual && e.contents.isEmpty then
        match disk e.file with
        | some data => data
        | none => e.contents
      else e.contents) := by
    split
    · cases hdk : disk e.file with
      | none => exact hcnt
      | some d => exact hdisk d hdk
    · exact hcnt
  have hfile : noEsc
      (if isAbs e.file then relCwd e.file
        else if e.virtual then '<' :: e.file ++ ['>'] else e.file) := by
    split
    · exact hrel
    · split
      · refine noEsc_cons '<' _ (by decide) (noEsc_append _ _ hf ?_)
        decide
      · exact hf
  intro s hs
  simp only [errSegs] at hs
  rcases List.mem_append.mp hs with hs1 | hs3
  rcases List.mem_append.mp hs1 with hs1 | hs2
  · -- the fixed header segments
    rcases List.mem_cons.mp hs1 with rfl | hs1
    · exact (by decide : errorColor ∈ ansiCodes)
    rcases List.mem_cons.mp hs1 with rfl | hs1
    · exact hm
    rcases List.mem_cons.mp hs1 with rfl | hs1
    · exact (by decide : resetColor ∈ ansiCodes)
    rcases List.mem_cons.mp hs1 with rfl | hs1
    · exact (by decide : noEsc (chars "\n\n"))
    rcases List.mem_cons.mp hs1 with rfl | hs1
    · exact (by decide : errorFocusColor ∈ ansiCodes)
    rcases List.mem_cons.mp hs1 with rfl | hs1
    · -- the file:line:column text
      split
      · exact noEsc_append _ _
          (noEsc_append _ _ hfile
            (noEsc_cons ':' _ (by decide) (noEsc_intDec e.line)))
          (noEsc_cons ':' _ (by decide) (noEsc_intDec e.column))
      · exact noEsc_append _ _ hfile (noEsc_cons ':' _ (by decide)
          (noEsc_intDec e.line))
    rcases List.mem_cons.mp hs1 with rfl | hs1
    · exact (by decide : resetColor ∈ ansiCodes)
    rcases List.mem_cons.mp hs1 with rfl | hs1
    · exact (by decide : noEsc ['\n'])
    exact absurd hs1 (List.not_mem_nil s)
  · -- the per-line segments
    rw [List.mem_flatMap] at hs2
    obtain ⟨i, _, hsi⟩ := hs2
    rcases List.mem_append.mp hsi with hs4 | hs5
    · rcases List.mem_cons.mp hs4 with rfl | hs4
      · split
        · exact (by decide : errorColor ∈ ansiCodes)
        · exact (by decide : lineNumberColor ∈ ansiCodes)
      rcases List.mem_cons.mp hs4 with rfl | hs4
      · exact noEsc_fmt3d _
      rcases List.mem_cons.mp hs4 with rfl | hs4
      · exact (by decide : resetColor ∈ ansiCodes)
      rcases List.mem_cons.mp hs4 with rfl | hs4
      · exact noEsc_cons ' ' _ (by decide)
          (noEsc_append _ _ (noEsc_getLine _ _ hcontents)
            (by decide : noEsc ['\n']))
      exact absurd hs4 (List.not_mem_nil s)
    · -- the caret segments
      by_cases hcond : i = e.line - e.lineOffset - 1 ∧ e.column > 0
      · rw [if_pos hcond] at hs5
        rcases List.mem_cons.mp hs5 with rfl | hs5
        · exact (by decide : errorColor ∈ ansiCodes)
        rcases List.mem_cons.mp hs5 with rfl | hs5
        · exact noEsc_append _ _ (noEsc_replicate _ ' ' (by decide))
            (by decide : noEsc ['^'])
        rcases List.mem_cons.mp hs5 with rfl | hs5
        · exact (by decide : resetColor ∈ ansiCodes)
        rcases List.mem_cons.mp hs5 with rfl | hs5
        · exact (by decide : noEsc ['\n'])
        exact absurd hs5 (List.not_mem_nil s)
      · rw [if_neg hcond] at hs5
        exact absurd hs5 (List.not_mem_nil s)
  · -- the details segments
    by_cases hde : e.details.isEmpty
    · rw [if_pos hde] at hs3
      exact absurd hs3 (List.not_mem_nil s)
    · rw [if_neg hde] at hs3
      rcases List.mem_cons.mp hs3 with rfl | hs3
      · exact (by decide : noEsc ['\n'])
      rcases List.mem_cons.mp hs3 with rfl | hs3
      · exact hd
      rcases List.mem_cons.mp hs3 with rfl | hs3
      · exact (by decide : noEsc ['\n'])
      exact absurd hs3 (List.not_mem_nil s)

/-- C8: the HTML rendering carries exactly the terminal rendering's
textual content.  Peeling the fixed `<pre>` wrapper off `Html` gives
precisely the color-rewritten HTML-escape of `Error`'s output, and erasing
the markup tags from it gives exactly the HTML-escape of the ANSI-stripped
terminal text: same message, file, line numbers, source excerpt and
details, differing only in formatting (color codes replaced by markup, text
HTML-escaped). -/
theorem Html_content_matches_error :
    (∀ s : List Char, unwrapPre (Html s) = replaceColors (escape s)) ∧
    ∀ (disk : List Char → Option (List Char))
      (relCwd : List Char → List Char) (e : SourceError),
      noEsc e.message → noEsc e.details → noEsc e.contents → noEsc e.file →
      (∀ d, disk e.file = some d → noEsc d) → noEsc (relCwd e.file) →
      contentOfHtml (Html (SourceError.error disk relCwd e))
        = escape (stripAnsi (SourceError.error disk relCwd e)) := by
  have hunwrap : ∀ s : List Char, unwrapPre (Html s) = replaceColors (escape s) := by
    intro s
    rw [Html, unwrapPre]
    have hassoc : chars "<pre style=\"" ++ styleAttr ++ chars "\">"
          ++ replaceColors (escape s) ++ chars "</pre>"
        = (chars "<pre style=\"" ++ styleAttr ++ chars "\">")
          ++ (replaceColors (escape s) ++ chars "</pre>") := by
      simp only [List.append_assoc]
    rw [hassoc, List.drop_left]
    rw [List.length_append]
    have hsub : (replaceColors (escape s)).length + (chars "</pre>").length
        - (chars "</pre>").length = (replaceColors (escape s)).length := by
      omega
    rw [hsub]
    exact List.take_left _ _
  refine ⟨hunwrap, ?_⟩
  intro disk relCwd e h1 h2 h3 h4 h5 h6
  rw [contentOfHtml, hunwrap]
  rw [SourceError.error]
  exact content_chain (errSegs disk relCwd e)
    (errSegs_wf disk relCwd e h1 h2 h3 h4 h5 h6)

/-- C8, witness: a concrete `SourceError` whose HTML rendering strips back
to the escape of its ANSI-stripped terminal rendering. -/
theorem Html_content_matches_error_witness :
    contentOfHtml
        (Html (SourceError.error (fun _ => none) id
          ⟨chars "a.md", true, 2, 1, chars "boom", chars "ctx", 0,
            chars "x\ny\nz"⟩))
      = escape (stripAnsi (SourceError.error (fun _ => none) id
          ⟨chars "a.md", true, 2, 1, chars "boom", chars "ctx", 0,
            chars "x\ny\nz"⟩)) :=
  Html_content_matches_error.2 (fun _ => none) id
    ⟨chars "a.md", true, 2, 1, chars "boom", chars "ctx", 0, chars "x\ny\nz"⟩
    (by decide) (by decide) (by decide) (by decide)
    (fun d h => Option.noConfusion h) (by decide)

end Sietch
